import Mathlib

set_option maxRecDepth 100000

/-!
Verification development for the food-name resolution core of the
MealPlan assistant (`actions.py`).  The Python source is shallowly
embedded: pure helpers become Lean functions on `List Char` / `String`,
pandas tables become `RawTable` (a header plus rows of optional string
cells, `none` modelling a missing value / NaN), floats become `Rat`,
exceptions become `Except`, and the process-global index becomes an
explicit association-list parameter.  Library calls (pandas, difflib)
are modelled by their documented behaviour, restricted to ASCII case
mapping and finite decimal literals, which covers every input the
claims mention.
-/

/- § Python character classes -/

/-- Python whitespace for `str.strip()` / `str.split()` (ASCII part):
space, tab, newline, carriage return, vertical tab, form feed. -/
def pyIsSpace (c : Char) : Bool :=
  c.toNat = 32 || c.toNat = 9 || c.toNat = 10 || c.toNat = 13 || c.toNat = 11 || c.toNat = 12

/-- Code points of the characters in the literal passed to
`s.strip(" .,!?:;\x22\x27()[]\x7b\x7d")` in `_norm_food_name`
(space, period, comma, bang, question mark, colon, semicolon,
double quote, single quote, parentheses, square brackets, curly braces). -/
def stripSetCodes : List Nat :=
  [32, 46, 44, 33, 63, 58, 59, 34, 39, 40, 41, 91, 93, 123, 125]

/-- Membership in the fixed punctuation set stripped by `_norm_food_name`. -/
def inStripSet (c : Char) : Bool := stripSetCodes.contains c.toNat

/- § list-of-characters primitives used by the embedding -/

/-- Drop the longest suffix of characters satisfying `p`
(the right half of Python's `str.strip`). -/
def rStrip (p : Char → Bool) : List Char → List Char
  | [] => []
  | c :: cs =>
    match rStrip p cs with
    | [] => if p c then [] else [c]
    | x :: xs => c :: x :: xs

/-- Python `str.strip(chars)`: iteratively remove characters satisfying
`p` from both ends, interior untouched. -/
def pyStrip (p : Char → Bool) (l : List Char) : List Char := rStrip p (l.dropWhile p)

/-- Worker for `splitWs`; `acc` is the reversed word being accumulated. -/
def splitWsAux : List Char → List Char → List (List Char)
  | [], acc => if acc = [] then [] else [acc.reverse]
  | c :: cs, acc =>
    if pyIsSpace c then
      if acc = [] then splitWsAux cs [] else acc.reverse :: splitWsAux cs []
    else splitWsAux cs (c :: acc)

/-- Python `str.split()` with no argument: the maximal whitespace-free
runs, leading/trailing/repeated whitespace ignored. -/
def splitWs (l : List Char) : List (List Char) := splitWsAux l []

/-- Tail of `" ".join`: prepend a single space before each further word. -/
def joinSpRest : List (List Char) → List Char
  | [] => []
  | w :: ws => ' ' :: (w ++ joinSpRest ws)

/-- Python `" ".join(words)`. -/
def joinSp : List (List Char) → List Char
  | [] => []
  | w :: ws => w ++ joinSpRest ws

/-- Worker for `collapseRuns`; the flag records whether the previous
character was whitespace (so the current run is already represented). -/
def collapseAux : List Char → Bool → List Char
  | [], _ => []
  | c :: cs, inRun =>
    if pyIsSpace c then
      if inRun then collapseAux cs true else ' ' :: collapseAux cs true
    else c :: collapseAux cs false

/-- Replace every maximal whitespace run by a single space (used only by
the spec-side normalizer `specNormalize`). -/
def collapseRuns (l : List Char) : List Char := collapseAux l false

/-- Python's substring test `needle in hay` on character lists. -/
def isSubstrL (n : List Char) : List Char → Bool
  | [] => n.isEmpty
  | c :: cs => n.isPrefixOf (c :: cs) || isSubstrL n cs

/-- Python's `needle in hay` on strings. -/
def strIn (needle hay : String) : Bool := isSubstrL needle.data hay.data

/- § Name Normalizer (`_norm_food_name`, actions.py lines 36-42) -/

/-- The character-list body of `_norm_food_name`:
`s.strip()`, then `s.strip(" .,!?:;\x22\x27()[]\x7b\x7d")`, then
`" ".join(s.upper().split())`.  `Char.toUpper` models `str.upper`
(ASCII case mapping). -/
def normChars (l : List Char) : List Char :=
  joinSp (splitWs ((pyStrip inStripSet (pyStrip pyIsSpace l)).map Char.toUpper))

/-- `_norm_food_name` on an actual string argument. -/
def _norm_food_name (s : String) : String := String.mk (normChars s.data)

/-- `_norm_food_name` including the `if s is None: return ""` branch. -/
def normOpt : Option String → String
  | none => ""
  | some s => _norm_food_name s

/-- Spec-side normalizer, following the words of spec §4.1: trim
whitespace, iteratively strip the fixed punctuation set from both ends
only, uppercase, collapse every whitespace run into a single space, trim
again.  Declared only to be compared with the source-translated
`_norm_food_name` (claim C6). -/
def specNormalize (s : String) : String :=
  String.mk (pyStrip pyIsSpace (collapseRuns ((pyStrip inStripSet (pyStrip pyIsSpace s.data)).map Char.toUpper)))

/- § numeric coercion (`_to_float` / `pd.to_numeric(errors="coerce")`) -/

/-- Decimal digit value of a character, if any. -/
def digitVal (c : Char) : Option Nat :=
  if 48 ≤ c.toNat ∧ c.toNat ≤ 57 then some (c.toNat - 48) else none

/-- Split off the maximal leading run of decimal digits. -/
def takeDigits : List Char → (List Nat × List Char)
  | [] => ([], [])
  | c :: cs =>
    match digitVal c with
    | some d => let r := takeDigits cs; (d :: r.1, r.2)
    | none => ([], c :: cs)

/-- Value of a digit list read most-significant first. -/
def natOfDigits (l : List Nat) : Nat := l.foldl (fun a d => 10 * a + d) 0

/-- Optional leading sign; returns whether the number is negated. -/
def parseSign : List Char → (Bool × List Char)
  | [] => (false, [])
  | c :: cs => if c = '+' then (false, cs) else if c = '-' then (true, cs) else (false, c :: cs)

/-- Unsigned decimal mantissa `digits[.digits]` with at least one
digit: its digit string read as a natural number, the number of
fractional digits, and the unconsumed rest. -/
def parseMantissa (l : List Char) : Option (Nat × Nat × List Char) :=
  let ip := takeDigits l
  match ip.2 with
  | '.' :: r2 =>
    let fp := takeDigits r2
    if ip.1 = [] ∧ fp.1 = [] then none
    else some (natOfDigits (ip.1 ++ fp.1), fp.1.length, fp.2)
  | _ => if ip.1 = [] then none else some (natOfDigits ip.1, 0, ip.2)

/-- The rational `n * 10 ^ ex` (built with `mkRat` so that it reduces
inside the kernel). -/
def decScaled (n : Int) (ex : Int) : Rat :=
  if 0 ≤ ex then mkRat (n * (10 : Int) ^ ex.toNat) 1 else mkRat n ((10 : Nat) ^ (-ex).toNat)

/-- Python `float(string)` restricted to finite decimal literals
(optional surrounding whitespace, optional sign, mantissa, optional
exponent); anything else is `none`. -/
def parseFloatChars (l0 : List Char) : Option Rat :=
  let l := pyStrip pyIsSpace l0
  let sg := parseSign l
  match parseMantissa sg.2 with
  | none => none
  | some (m, k, r) =>
    let n : Int := if sg.1 then -(m : Int) else (m : Int)
    match r with
    | [] => some (decScaled n (-(k : Int)))
    | e :: r2 =>
      if e = 'e' ∨ e = 'E' then
        let sg2 := parseSign r2
        let ed := takeDigits sg2.2
        if ed.1 = [] ∨ ed.2 ≠ [] then none
        else
          some (decScaled n ((if sg2.1 then -(natOfDigits ed.1 : Int) else (natOfDigits ed.1 : Int)) - (k : Int)))
      else none

/-- `pd.to_numeric(cell, errors="coerce")` on a single cell: a missing
cell or an unparsable string coerces to missing (`none`), never to an
error. -/
def to_numeric : Option String → Option Rat
  | none => none
  | some s => parseFloatChars s.data

/- § Column Resolver (`_pick_col`, actions.py lines 57-72) -/

/-- `str.lower` (ASCII case mapping, mirroring `Char.toUpper`). -/
def lowerStr (s : String) : String := String.mk (s.data.map Char.toLower)

/-- Lookup in the dict comprehension `{c.lower(): c for c in cols}`:
on duplicate lowercased names the later column overwrites the earlier,
hence the reversed search. -/
def dictLastLower (cols : List String) (key : String) : Option String :=
  cols.reverse.find? (fun c => lowerStr c == key)

/-- Pass 1 of `_pick_col`: first candidate (in candidate order) with a
case-insensitive exact match among the columns wins. -/
def pickExact (cols : List String) : List String → Option String
  | [] => none
  | cand :: rest =>
    match dictLastLower cols (lowerStr cand) with
    | some c => some c
    | none => pickExact cols rest

/-- Pass 2 of `_pick_col`: first column (in original column order) whose
lowercased name contains some candidate as a substring. -/
def pickSub (cols cands : List String) : Option String :=
  cols.find? (fun c => cands.any (fun cand => strIn (lowerStr cand) (lowerStr c)))

/-- `_pick_col(df, candidates)`: exact pass, then substring pass. -/
def _pick_col (cols cands : List String) : Option String :=
  match pickExact cols cands with
  | some c => some c
  | none => pickSub cols cands

/- § data model for tables and standardized rows -/

/-- One pandas cell: `none` is a missing value (NaN), `some s` a string. -/
abbrev Cell := Option String

/-- A raw pandas DataFrame as read from the CSV: named columns and rows
of cells (a short row yields missing cells at the end). -/
structure RawTable where
  columns : List String
  rows : List (List Cell)
deriving DecidableEq

/-- One row of the standardized frame built by `_standardize_dataset`.
`item` is a genuine string (never NaN) because of `astype(str)`. -/
structure StdRow where
  item : String
  calories : Option Rat
  protein : Option Rat
  fat : Option Rat
  carbs : Option Rat
  item_norm : String
deriving DecidableEq

def itemCandidates : List String := ["item", "food", "name", "description"]

def kcalCandidates : List String := ["calories", "kcal", "energy_kcal"]

def proteinCandidates : List String := ["protein"]

def fatCandidates : List String := ["fat"]

def carbsCandidates : List String := ["carbs", "carbohydrate"]

/-- pandas `astype(str)` on one cell: a missing value becomes the
string "nan". -/
def astypeStr : Cell → String
  | none => "nan"
  | some s => s

/-- `df[col]` for one row: the cell under the first column with that
name, missing when the column is absent (`none` column models the
constant-`None` columns assigned for unresolved optional fields). -/
def cellAt (tbl : RawTable) (row : List Cell) (col : Option String) : Cell :=
  match col with
  | none => none
  | some c =>
    match tbl.columns.indexOf? c with
    | none => none
    | some i => (row[i]?).join

/-- Standardization of one raw row (the column assignments of
`_standardize_dataset`): `item = df[item_col].astype(str).str.strip()`,
numeric fields through `pd.to_numeric(errors="coerce")`,
`item_norm = _norm_food_name(item)`. -/
def stdRowOf (tbl : RawTable) (ic kc : String) (pc fc cc : Option String) (row : List Cell) : StdRow :=
  let itemStr := String.mk (pyStrip pyIsSpace (astypeStr (cellAt tbl row (some ic))).data)
  { item := itemStr
    calories := to_numeric (cellAt tbl row (some kc))
    protein := to_numeric (cellAt tbl row pc)
    fat := to_numeric (cellAt tbl row fc)
    carbs := to_numeric (cellAt tbl row cc)
    item_norm := _norm_food_name itemStr }

/-- All standardized rows before filtering and deduplication. -/
def preRows (tbl : RawTable) (ic kc : String) : List StdRow :=
  tbl.rows.map
    (stdRowOf tbl ic kc (_pick_col tbl.columns proteinCandidates)
      (_pick_col tbl.columns fatCandidates) (_pick_col tbl.columns carbsCandidates))

/-- `out.dropna(subset=["item", "calories"])`: after `astype(str)` the
`item` column holds strings, never NaN, so only a missing `calories`
value can drop a row. -/
def survivorRows (tbl : RawTable) (ic kc : String) : List StdRow :=
  (preRows tbl ic kc).filter (fun r => r.calories.isSome)

/-- `drop_duplicates(subset=["item_norm"])` with the default
`keep="first"`; `seen` holds the keys already emitted. -/
def dedupAux (seen : List String) : List StdRow → List StdRow
  | [] => []
  | r :: rs =>
    if seen.contains r.item_norm then dedupAux seen rs
    else r :: dedupAux (r.item_norm :: seen) rs

/-- `drop_duplicates(subset=["item_norm"])`, keeping first occurrences. -/
def dedupRows (l : List StdRow) : List StdRow := dedupAux [] l

/-- The exceptions the loader can raise: `FileNotFoundError`,
`RuntimeError("Cannot read Kaggle CSV file")` (both read by the spec as
`DatasetUnavailable`) and `ValueError("Missing required nutrition
columns")` (the spec's `SchemaError`). -/
inductive LoadErr where
  | fileNotFound
  | cannotReadCsv
  | missingColumns
deriving DecidableEq

/-- `_standardize_dataset` (actions.py lines 75-98).  The guard models
Python truthiness: `not item_col` also holds for an empty column name. -/
def _standardize_dataset (tbl : RawTable) : Except LoadErr (List StdRow) :=
  match _pick_col tbl.columns itemCandidates, _pick_col tbl.columns kcalCandidates with
  | some ic, some kc =>
    if ic = "" ∨ kc = "" then .error .missingColumns
    else .ok (dedupRows (survivorRows tbl ic kc))
  | _, _ => .error .missingColumns

/-- The filtered-but-not-yet-deduplicated rows of a table, as a total
function (empty when the required columns do not resolve); used to state
the first-seen-wins property. -/
def survivorRowsOf (tbl : RawTable) : List StdRow :=
  match _pick_col tbl.columns itemCandidates, _pick_col tbl.columns kcalCandidates with
  | some ic, some kc => survivorRows tbl ic kc
  | _, _ => []

/-- A value of `_KAGGLE_INDEX`: the dict built per row in
`_load_local_dataset`.  `_to_float` is the identity on the already
numeric-or-missing standardized values. -/
structure FoodRec where
  name : String
  kcal : Option Rat
  protein : Option Rat
  carbs : Option Rat
  fat : Option Rat
deriving DecidableEq

/-- The record stored for a standardized row. -/
def recOf (r : StdRow) : FoodRec := ⟨r.item, r.calories, r.protein, r.carbs, r.fat⟩

/-- `_KAGGLE_INDEX` as an insertion-ordered association list; its key
list (`map Prod.fst`) is `_ALL_KEYS`. -/
def buildIndex (rows : List StdRow) : List (String × FoodRec) := rows.map (fun r => (r.item_norm, recOf r))

/-- Dict lookup `_KAGGLE_INDEX.get(k)` (and `_KAGGLE_INDEX[k]` when the
key is present). -/
def dictGet (idx : List (String × FoodRec)) (k : String) : Option FoodRec :=
  (idx.find? (fun p => p.1 == k)).map Prod.snd

/-- The observable filesystem behaviour the loader depends on:
whether the dataset file exists, and the outcome of `pd.read_csv` under
each of the three encodings tried in order (`none` = that attempt raised). -/
structure DatasetSource where
  fileExists : Bool
  readUtf8Sig : Option RawTable
  readUtf8 : Option RawTable
  readLatin1 : Option RawTable

/-- `_read_kaggle_csv` (actions.py lines 101-109): first encoding that
parses wins; otherwise `RuntimeError`. -/
def _read_kaggle_csv (src : DatasetSource) : Except LoadErr RawTable :=
  match src.readUtf8Sig with
  | some t => .ok t
  | none =>
    match src.readUtf8 with
    | some t => .ok t
    | none =>
      match src.readLatin1 with
      | some t => .ok t
      | none => .error .cannotReadCsv

/-- `_load_local_dataset` (actions.py lines 112-138) without the
process-global `_DATA_LOADED` guard: existence check, resilient read,
standardization, index building. -/
def _load_local_dataset (src : DatasetSource) : Except LoadErr (List (String × FoodRec)) :=
  if src.fileExists = false then .error .fileNotFound
  else
    match _read_kaggle_csv src with
    | .error e => .error e
    | .ok raw =>
      match _standardize_dataset raw with
      | .error e => .error e
      | .ok rows => .ok (buildIndex rows)

/- § difflib model (SequenceMatcher without junk, get_close_matches) -/

/-- Length of the common run at the heads of two character lists. -/
def commonRun : List Char → List Char → Nat
  | a :: as, b :: bs => if a = b then commonRun as bs + 1 else 0
  | _, _ => 0

/-- Length of the matching run starting at `(i, j)`, clipped to the
window `[i, ahi) x [j, bhi)`. -/
def runLen (a b : List Char) (ahi bhi i j : Nat) : Nat :=
  commonRun ((a.drop i).take (ahi - i)) ((b.drop j).take (bhi - j))

/-- All window positions in lexicographic order. -/
def candPairs (alo ahi blo bhi : Nat) : List (Nat × Nat) :=
  ((List.range' alo (ahi - alo)).map (fun i => (List.range' blo (bhi - blo)).map (fun j => (i, j)))).flatten

/-- `SequenceMatcher.find_longest_match` on the window (no junk, the
configuration reachable here for queries shorter than the autojunk
threshold): among all maximal matching blocks the longest wins, ties by
earliest start in `a`, then earliest start in `b`. -/
def find_longest_match (a b : List Char) (alo ahi blo bhi : Nat) : Nat × Nat × Nat :=
  (candPairs alo ahi blo bhi).foldl
    (fun best ij =>
      let k := runLen a b ahi bhi ij.1 ij.2
      if best.2.2 < k then (ij.1, ij.2, k) else best)
    (alo, blo, 0)

/-- Total size of the matching blocks: recursively split around the
longest match, as `get_matching_blocks` does.  The fuel strictly exceeds
the recursion depth (every recursive window is strictly narrower in `a`,
and the top call gets `a.length + 1`), so it never runs out. -/
def matchingTotalF : Nat → List Char → List Char → Nat → Nat → Nat → Nat → Nat
  | 0, _, _, _, _, _, _ => 0
  | fuel + 1, a, b, alo, ahi, blo, bhi =>
    let m := find_longest_match a b alo ahi blo bhi
    if m.2.2 = 0 then 0
    else
      matchingTotalF fuel a b alo m.1 blo m.2.1 + m.2.2 +
        matchingTotalF fuel a b (m.1 + m.2.2) ahi (m.2.1 + m.2.2) bhi

/-- Matched-element count `M` of `SequenceMatcher(a, b)`. -/
def matchingTotal (a b : List Char) : Nat :=
  matchingTotalF (a.length + 1) a b 0 a.length 0 b.length

/-- Numerator `2 * M` of `SequenceMatcher.ratio()`. -/
def scoreNum (a b : List Char) : Nat := 2 * matchingTotal a b

/-- Denominator `len(a) + len(b)` of `SequenceMatcher.ratio()`. -/
def scoreDen (a b : List Char) : Nat := a.length + b.length

/-- `SequenceMatcher.ratio()`: `2 * M / (len(a) + len(b))`, and `1.0`
for two empty sequences, as an exact rational.  Used in statements; the
executable comparisons below cross-multiply instead. -/
def simScore (a b : List Char) : Rat :=
  if scoreDen a b = 0 then 1 else (scoreNum a b : Rat) / (scoreDen a b : Rat)

/-- `ratio(x, w) >= 0.6`, by cross-multiplication. -/
def ratioGeCutoff (x w : List Char) : Bool :=
  if scoreDen x w = 0 then true else decide (3 * scoreDen x w ≤ 5 * scoreNum x w)

/-- `ratio(x, w) < ratio(y, w)`, by cross-multiplication. -/
def ratioLt (x y w : List Char) : Bool :=
  if scoreDen x w = 0 then
    if scoreDen y w = 0 then false else decide (scoreDen y w < scoreNum y w)
  else if scoreDen y w = 0 then decide (scoreNum x w < scoreDen x w)
  else decide (scoreNum x w * scoreDen y w < scoreNum y w * scoreDen x w)

/-- `ratio(x, w) == ratio(y, w)`, by cross-multiplication. -/
def ratioEq (x y w : List Char) : Bool :=
  if scoreDen x w = 0 then
    if scoreDen y w = 0 then true else decide (scoreNum y w = scoreDen y w)
  else if scoreDen y w = 0 then decide (scoreNum x w = scoreDen x w)
  else decide (scoreNum x w * scoreDen y w = scoreNum y w * scoreDen x w)

/-- Python string `<` (lexicographic on code points). -/
def lexLtChars : List Char → List Char → Bool
  | [], [] => false
  | [], _ :: _ => true
  | _ :: _, [] => false
  | a :: as, b :: bs =>
    if a.toNat < b.toNat then true
    else if a.toNat = b.toNat then lexLtChars as bs else false

/-- Python `max` over the `(score, key)` tuples built by
`get_close_matches` (`heapq.nlargest` with `n=1`): keep the first
maximum, replacing the current best only on strictly greater pairs,
score compared first and ties broken by string comparison of the keys. -/
def gcmFold (w : List Char) (x : String) (xs : List String) : String :=
  xs.foldl
    (fun best y =>
      if ratioLt best.data y.data w || (ratioEq best.data y.data w && lexLtChars best.data y.data)
      then y else best)
    x

/-- The default `cutoff=0.6` of `difflib.get_close_matches`. -/
def scoreCutoff : Rat := 3 / 5

/-- `difflib.get_close_matches(word, possibilities, n=1)`: keep the
possibilities scoring at least the cutoff (the `real_quick_ratio` /
`quick_ratio` prechecks are upper bounds of `ratio` and do not change
the accepted set), then the single largest `(score, key)` pair. -/
def get_close_matches (word : String) (possibilities : List String) : List String :=
  match possibilities.filter (fun x => ratioGeCutoff x.data word.data) with
  | [] => []
  | x :: xs => [gcmFold word.data x xs]

/-- Tier 3 of `_lookup_food` (actions.py lines 152-157): fuzzy matching
against all keys, then a dict `get` on the winner. -/
def fuzzyLookup (idx : List (String × FoodRec)) (q : String) : Option FoodRec :=
  match get_close_matches q (idx.map Prod.fst) with
  | k :: _ => dictGet idx k
  | [] => none

/-- `_lookup_food` (actions.py lines 141-157): exact dict hit, else
first key containing the normalized query, else fuzzy. -/
def _lookup_food (idx : List (String × FoodRec)) (food : String) : Option FoodRec :=
  let q := _norm_food_name food
  match dictGet idx q with
  | some r => some r
  | none =>
    match (idx.map Prod.fst).filter (fun k => strIn q k) with
    | k :: _ => dictGet idx k
    | [] => fuzzyLookup idx q

/- § concrete fixtures used by the claims -/

def bananaRec : FoodRec := ⟨"Banana", some 89, some (mkRat 11 10), some (mkRat 228 10), some (mkRat 3 10)⟩

def bananaIdx : List (String × FoodRec) := [("BANANA", bananaRec)]

def eggWhiteRec : FoodRec := ⟨"Egg White", some 52, none, none, none⟩

def eggIdx : List (String × FoodRec) := [("EGG WHITE", eggWhiteRec)]

def eggRec2 : FoodRec := ⟨"Egg", some 155, none, none, none⟩

def exactIdx : List (String × FoodRec) := [("EGG WHITE", eggWhiteRec), ("EGG", eggRec2)]

def tblC4 : RawTable :=
  ⟨["item", "calories"], [[some "", some "50"], [some "Egg", some "abc"]]⟩

def c10RecA : FoodRec := ⟨"Alpha", some 1, none, none, none⟩

def c10RecB : FoodRec := ⟨"Dot", some 2, none, none, none⟩

def c10Idx : List (String × FoodRec) := [("A", c10RecA), ("", c10RecB)]

/- sanity examples (behavioural checks of the embedding) -/

example : _norm_food_name "  chicken   Breast " = "CHICKEN BREAST" := by decide

example : _norm_food_name ".\t.a" = ".A" := by decide

example : _norm_food_name "egg" = "EGG" := by decide

example : parseFloatChars "50".data = some 50 := by decide

example : parseFloatChars " 50.5 ".data = some (mkRat 101 2) := by decide

example : parseFloatChars "-2e3".data = some (mkRat (-2000) 1) := by decide

example : parseFloatChars "abc".data = none := by decide

example : parseFloatChars "".data = none := by decide

example : _pick_col ["Calories", "total_calories_extra"] ["calories"] = some "Calories" := by decide

example : _lookup_food eggIdx "egg" = some eggWhiteRec := by decide

example : _lookup_food bananaIdx "bananna" = some bananaRec := by decide

example : _lookup_food bananaIdx "zzzzxyz123" = none := by decide

example : get_close_matches "EGG WHITES PLEASE" ["EGG WHITE"] = ["EGG WHITE"] := by decide

example : _lookup_food exactIdx "egg" = some eggRec2 := by decide

/- § helper lemmas on the embedding -/

theorem isSubstrL_nil (l : List Char) : isSubstrL [] l = true := by
  cases l <;> simp [isSubstrL, List.isPrefixOf]

theorem find?_cons_pos {α : Type} (p : α → Bool) (a : α) (l : List α) (h : p a = true) :
    List.find? p (a :: l) = some a := by
  simp [List.find?_cons, h]

theorem find?_cons_neg {α : Type} (p : α → Bool) (a : α) (l : List α) (h : p a = false) :
    List.find? p (a :: l) = List.find? p l := by
  simp [List.find?_cons, h]

theorem dictGet_isSome_of_mem {idx : List (String × FoodRec)} {k : String}
    (h : k ∈ idx.map Prod.fst) : ∃ r, dictGet idx k = some r := by
  induction idx with
  | nil => simp at h
  | cons p idx ih =>
    by_cases hp : p.1 == k
    · refine ⟨p.2, ?_⟩
      unfold dictGet
      rw [find?_cons_pos (fun q => q.1 == k) p idx hp]
      rfl
    · have hk : k ∈ idx.map Prod.fst := by
        simp only [List.map_cons, List.mem_cons] at h
        rcases h with h | h
        · exact absurd (by simp [h]) hp
        · exact h
      obtain ⟨r, hr⟩ := ih hk
      refine ⟨r, ?_⟩
      unfold dictGet at hr ⊢
      rw [find?_cons_neg (fun q => q.1 == k) p idx (by simpa using hp)]
      exact hr

theorem filter_head_eq_find (p : String → Bool) (l : List String) :
    (l.filter p).head? = l.find? p := by
  induction l with
  | nil => rfl
  | cons a l ih =>
    by_cases hp : p a
    · simp [List.filter_cons, hp, List.find?_cons_of_pos]
    · simp only [Bool.not_eq_true] at hp
      simp [List.filter_cons, hp, List.find?_cons_of_neg, ih]

/- § C1: exact tier wins -/

/-- C1: `resolve` applies the three tiers in fixed order with first
success winning: whenever the normalized query is itself a key of the
index (the dict lookup succeeds), `_lookup_food` returns that key's
record, regardless of any substring or fuzzy matches elsewhere in the
index. -/
theorem lookup_exact_first (idx : List (String × FoodRec)) (food : String) (r : FoodRec)
    (h : dictGet idx (_norm_food_name food) = some r) :
    _lookup_food idx food = some r := by
  simp [_lookup_food, h]

/-- Witness for C1: in an index whose first key "EGG WHITE" contains the
normalized query "EGG" as a substring, the exact key "EGG" still wins. -/
theorem lookup_exact_first_witness :
    dictGet exactIdx (_norm_food_name "egg") = some eggRec2 ∧
      _lookup_food exactIdx "egg" = some eggRec2 :=
  ⟨by decide, lookup_exact_first exactIdx "egg" eggRec2 (by decide)⟩

/- § C2: substring tier -/

/-- C2: when the normalized query is not an exact key, the substring
tier returns the record of the first key (in index order) containing
the normalized query as a substring; if no key contains the query
(regardless of whether the query contains some key), the lookup falls
through to the fuzzy tier.  Concretely, "egg" resolves to the
"EGG WHITE" record, while "egg whites please" matches no key by
substring and is handed to the fuzzy tier. -/
theorem lookup_substring_tier :
    (∀ (idx : List (String × FoodRec)) (food : String),
      dictGet idx (_norm_food_name food) = none →
      (∀ k, (idx.map Prod.fst).find? (fun key => strIn (_norm_food_name food) key) = some k →
        ∃ r, dictGet idx k = some r ∧ _lookup_food idx food = some r) ∧
      ((idx.map Prod.fst).find? (fun key => strIn (_norm_food_name food) key) = none →
        _lookup_food idx food = fuzzyLookup idx (_norm_food_name food))) ∧
    _lookup_food eggIdx "egg" = some eggWhiteRec ∧
    (eggIdx.map Prod.fst).find? (fun key => strIn (_norm_food_name "egg whites please") key) = none ∧
    _lookup_food eggIdx "egg whites please" = fuzzyLookup eggIdx (_norm_food_name "egg whites please") := by
  refine ⟨?_, by decide, by decide, by decide⟩
  intro idx food hq
  constructor
  · intro k hk
    have hhead : ((idx.map Prod.fst).filter (fun key => strIn (_norm_food_name food) key)).head? = some k := by
      rw [filter_head_eq_find]; exact hk
    rcases List.head?_eq_some_iff.mp hhead with ⟨tail, htail⟩
    have hkmem : k ∈ idx.map Prod.fst := by
      have : k ∈ (idx.map Prod.fst).filter (fun key => strIn (_norm_food_name food) key) := by
        rw [htail]; exact List.mem_cons_self k tail
      exact List.mem_of_mem_filter this
    obtain ⟨r, hr⟩ := dictGet_isSome_of_mem hkmem
    refine ⟨r, hr, ?_⟩
    simp [_lookup_food, hq, htail, hr]
  · intro hnone
    have hfilter : ((idx.map Prod.fst).filter (fun key => strIn (_norm_food_name food) key)) = [] := by
      rw [← List.head?_eq_none_iff, filter_head_eq_find]; exact hnone
    simp [_lookup_food, hq, hfilter]

/-- Witness for C2: the "egg" query against the "EGG WHITE" index goes
through the substring branch of the main theorem. -/
theorem lookup_substring_tier_witness :
    ∃ r, dictGet eggIdx "EGG WHITE" = some r ∧ _lookup_food eggIdx "egg" = some r :=
  (lookup_substring_tier.1 eggIdx "egg" (by decide)).1 "EGG WHITE" (by decide)

/- § C10: empty normalized query (amended) -/

/-- C10 (amended): for a query normalizing to the empty string and a
non-empty index, `resolve` never answers NotFound; when the empty
string is not itself a key, the substring tier returns the record of
the first key in index order (the empty string being a substring of
every key).  When the empty string is a key, the exact tier answers
first instead. -/
theorem lookup_empty_query (idx : List (String × FoodRec)) (food : String)
    (hne : idx ≠ []) (hq : _norm_food_name food = "") :
    _lookup_food idx food ≠ none ∧
    (dictGet idx "" = none →
      ∃ k r, (idx.map Prod.fst).head? = some k ∧ dictGet idx k = some r ∧
        _lookup_food idx food = some r) := by
  cases hd : dictGet idx "" with
  | some r =>
    have hlook : _lookup_food idx food = some r := by simp [_lookup_food, hq, hd]
    exact ⟨by simp [hlook], fun h => by simp [hd] at h⟩
  | none =>
    have hfil : ((idx.map Prod.fst).filter (fun key => strIn "" key)) = idx.map Prod.fst := by
      apply List.filter_eq_self.mpr
      intro k _
      exact isSubstrL_nil k.data
    have hkeys : idx.map Prod.fst ≠ [] := by
      simpa using hne
    obtain ⟨k0, t, hk0⟩ := List.exists_cons_of_ne_nil hkeys
    have hmem : k0 ∈ idx.map Prod.fst := by rw [hk0]; simp
    obtain ⟨r, hr⟩ := dictGet_isSome_of_mem hmem
    have hfil2 : ((idx.map Prod.fst).filter (fun key => strIn "" key)) = k0 :: t := by
      rw [hfil, hk0]
    have hlook : _lookup_food idx food = some r := by
      simp only [_lookup_food, hq, hd, hfil2]
      exact hr
    exact ⟨by simp [hlook], fun _ => ⟨k0, r, by rw [hk0]; rfl, hr, hlook⟩⟩

/-- Witness for C10 (amended): the empty query against the "EGG WHITE"
index is not NotFound. -/
theorem lookup_empty_query_witness :
    eggIdx ≠ [] ∧ _norm_food_name "" = "" ∧ _lookup_food eggIdx "" ≠ none :=
  ⟨by decide, by decide, (lookup_empty_query eggIdx "" (by decide) (by decide)).1⟩

/-- Counterexample for C10 as stated: in an index whose keys are
["A", ""] the query "," normalizes to the empty string, yet `resolve`
returns the record of the key "" through the exact tier, not the record
of the first key "A". -/
theorem lookup_empty_query_counterexample :
    _norm_food_name "," = "" ∧ c10Idx ≠ [] ∧ (c10Idx.map Prod.fst).head? = some "A" ∧
      dictGet c10Idx "A" = some c10RecA ∧ _lookup_food c10Idx "," = some c10RecB ∧
      c10RecB ≠ c10RecA := by
  exact ⟨by decide, by decide, by decide, by decide, by decide, by decide⟩

/- § C8: column resolution, exact before substring -/

theorem lowerStr_eq_empty {s : String} (h : lowerStr s = "") : s = "" := by
  unfold lowerStr at h
  have : s.data.map Char.toLower = [] := by
    have := congrArg String.data h
    simpa using this
  rcases List.map_eq_nil_iff.mp this with h2
  cases s
  simp_all

theorem anyLower_iff_dictLastLower {cols : List String} {key : String} :
    (cols.any (fun c => lowerStr c == key)) = true ↔ (dictLastLower cols key).isSome := by
  rw [List.any_eq_true]
  unfold dictLastLower
  rw [List.find?_isSome]
  constructor
  · rintro ⟨c, hc, hp⟩
    exact ⟨c, List.mem_reverse.mpr hc, hp⟩
  · rintro ⟨c, hc, hp⟩
    exact ⟨c, List.mem_reverse.mp hc, hp⟩

theorem pickExact_of_find (cols : List String) :
    ∀ (cands : List String) (cand : String),
      cands.find? (fun cand => cols.any (fun c => lowerStr c == lowerStr cand)) = some cand →
      pickExact cols cands = dictLastLower cols (lowerStr cand) ∧
        (dictLastLower cols (lowerStr cand)).isSome := by
  intro cands
  induction cands with
  | nil => intro cand h; simp at h
  | cons a rest ih =>
    intro cand h
    by_cases ha : (cols.any (fun c => lowerStr c == lowerStr a)) = true
    · rw [find?_cons_pos _ a rest ha] at h
      cases h
      have hsome := anyLower_iff_dictLastLower.mp ha
      rcases Option.isSome_iff_exists.mp hsome with ⟨col, hcol⟩
      refine ⟨?_, hsome⟩
      unfold pickExact
      rw [hcol]
    · rw [find?_cons_neg _ a rest (by simpa using ha)] at h
      have hnone : dictLastLower cols (lowerStr a) = none := by
        rcases hod : dictLastLower cols (lowerStr a) with _ | col
        · rfl
        · exact absurd (anyLower_iff_dictLastLower.mpr (by rw [hod]; rfl)) ha
      have := ih cand h
      refine ⟨?_, this.2⟩
      unfold pickExact
      rw [hnone]
      exact this.1

theorem pickExact_none (cols : List String) :
    ∀ cands : List String,
      (∀ cand ∈ cands, ∀ c ∈ cols, ¬lowerStr c = lowerStr cand) →
      pickExact cols cands = none := by
  intro cands
  induction cands with
  | nil => intro _; rfl
  | cons a rest ih =>
    intro h
    have hnone : dictLastLower cols (lowerStr a) = none := by
      rcases hod : dictLastLower cols (lowerStr a) with _ | col
      · rfl
      · have hmem := List.mem_reverse.mp (List.mem_of_find?_eq_some hod)
        have hp := List.find?_some hod
        exact absurd (by simpa using hp) (h a (List.mem_cons_self a rest) col hmem)
    unfold pickExact
    rw [hnone]
    exact ih (fun cand hc => h cand (List.mem_cons_of_mem a hc))

/-- C8: `_pick_col` prefers an exact case-insensitive match over a
substring match: whenever some candidate matches a column exactly
(case-insensitively), the first such candidate in candidate order
determines the result (the column registered for that candidate's
lowercase form), and the substring pass runs only when no candidate has
an exact match; in particular columns `["Calories",
"total_calories_extra"]` with candidates `["calories"]` resolve to
`"Calories"`. -/
theorem pick_col_exact_before_substring :
    (∀ (cols cands : List String) (cand : String),
      cands.find? (fun cand => cols.any (fun c => lowerStr c == lowerStr cand)) = some cand →
      _pick_col cols cands = dictLastLower cols (lowerStr cand) ∧
        (dictLastLower cols (lowerStr cand)).isSome) ∧
    (∀ cols cands : List String,
      (∀ cand ∈ cands, ∀ c ∈ cols, ¬lowerStr c = lowerStr cand) →
      _pick_col cols cands = pickSub cols cands) ∧
    _pick_col ["Calories", "total_calories_extra"] ["calories"] = some "Calories" := by
  refine ⟨?_, ?_, by decide⟩
  · intro cols cands cand h
    obtain ⟨he, hsome⟩ := pickExact_of_find cols cands cand h
    rcases Option.isSome_iff_exists.mp hsome with ⟨col, hcol⟩
    constructor
    · unfold _pick_col
      rw [he, hcol]
    · exact hsome
  · intro cols cands h
    unfold _pick_col
    rw [pickExact_none cols cands h]

/-- Witness for C8: the example resolution goes through the exact-match
branch of the main theorem. -/
theorem pick_col_exact_before_substring_witness :
    _pick_col ["Calories", "total_calories_extra"] ["calories"] =
        dictLastLower ["Calories", "total_calories_extra"] (lowerStr "calories") ∧
      (dictLastLower ["Calories", "total_calories_extra"] (lowerStr "calories")).isSome :=
  pick_col_exact_before_substring.1 ["Calories", "total_calories_extra"] ["calories"]
    "calories" (by decide)

/- § C9: loader error conditions -/

theorem strIn_hay_empty {needle : String} (h : strIn needle "" = true) : needle = "" := by
  unfold strIn isSubstrL at h
  have : needle.data = [] := by
    simpa using h
  cases needle
  simp_all

theorem pick_col_ne_some_empty (cols : List String) (cands : List String)
    (hc : ∀ cand ∈ cands, cand ≠ "") : _pick_col cols cands ≠ some "" := by
  unfold _pick_col
  rcases he : pickExact cols cands with _ | col
  · rcases hs : pickSub cols cands with _ | col
    · simp
    · have hp := List.find?_some hs
      rcases List.any_eq_true.mp hp with ⟨cand, hcand, hin⟩
      intro hcol
      have hcol' : col = "" := by simpa using hcol
      subst hcol'
      have : lowerStr cand = "" := strIn_hay_empty (by simpa using hin)
      exact hc cand hcand (lowerStr_eq_empty this)
  · intro hcol
    have hcol' : col = "" := by simpa using hcol
    subst hcol'
    clear hcol
    induction cands with
    | nil => simp [pickExact] at he
    | cons a rest ih =>
      unfold pickExact at he
      rcases hd : dictLastLower cols (lowerStr a) with _ | col2
      · rw [hd] at he
        exact ih (fun cand hc2 => hc cand (List.mem_cons_of_mem a hc2)) he
      · rw [hd] at he
        have hcol2 : col2 = "" := by simpa using he
        subst hcol2
        have hp := List.find?_some hd
        have : lowerStr a = "" := by
          have : lowerStr "" = lowerStr a := by simpa using hp
          simpa [lowerStr] using this.symm
        exact hc a (List.mem_cons_self a rest) (lowerStr_eq_empty this)

theorem standardize_error_iff (tbl : RawTable) :
    (_standardize_dataset tbl = .error .missingColumns ↔
      (_pick_col tbl.columns itemCandidates = none ∨ _pick_col tbl.columns kcalCandidates = none)) ∧
    (∀ e, _standardize_dataset tbl = .error e → e = .missingColumns) ∧
    ((∃ rows, _standardize_dataset tbl = .ok rows) ↔
      (_pick_col tbl.columns itemCandidates ≠ none ∧ _pick_col tbl.columns kcalCandidates ≠ none)) := by
  have hitem : ∀ cand ∈ itemCandidates, cand ≠ "" := by decide
  have hkcal : ∀ cand ∈ kcalCandidates, cand ≠ "" := by decide
  rcases hi : _pick_col tbl.columns itemCandidates with _ | ic
  · refine ⟨by simp [_standardize_dataset, hi], ?_, by simp [_standardize_dataset, hi]⟩
    intro e he
    simp [_standardize_dataset, hi] at he
    exact he.symm
  · rcases hk : _pick_col tbl.columns kcalCandidates with _ | kc
    · refine ⟨by simp [_standardize_dataset, hi, hk], ?_, by simp [_standardize_dataset, hi, hk]⟩
      intro e he
      simp [_standardize_dataset, hi, hk] at he
      exact he.symm
    · have hic : ic ≠ "" := by
        intro h
        exact pick_col_ne_some_empty tbl.columns itemCandidates hitem (h ▸ hi)
      have hkc : kc ≠ "" := by
        intro h
        exact pick_col_ne_some_empty tbl.columns kcalCandidates hkcal (h ▸ hk)
      have hguard : ¬(ic = "" ∨ kc = "") := by
        rintro (h | h)
        · exact hic h
        · exact hkc h
      refine ⟨by simp [_standardize_dataset, hi, hk, hguard], ?_, by simp [_standardize_dataset, hi, hk, hguard]⟩
      intro e he
      simp [_standardize_dataset, hi, hk, hguard] at he

theorem read_kaggle_csv_error_iff (src : DatasetSource) :
    (∀ e, _read_kaggle_csv src = .error e →
      (e = .cannotReadCsv ∧ src.readUtf8Sig = none ∧ src.readUtf8 = none ∧ src.readLatin1 = none)) ∧
    ((src.readUtf8Sig = none ∧ src.readUtf8 = none ∧ src.readLatin1 = none) →
      _read_kaggle_csv src = .error .cannotReadCsv) := by
  rcases h1 : src.readUtf8Sig with _ | t1 <;>
    rcases h2 : src.readUtf8 with _ | t2 <;>
    rcases h3 : src.readLatin1 with _ | t3 <;>
    constructor <;>
    intro e <;>
    simp_all [_read_kaggle_csv]

/-- C9: the loader fails with `DatasetUnavailable` exactly when the
file is missing (`fileNotFound`) or no encoding attempt parses it
(`cannotReadCsv`), fails with `SchemaError` (`missingColumns`) exactly
when the item or calories column of the decoded table does not resolve,
and succeeds in every other case: in particular malformed rows never
abort a load whose file exists, decodes, and resolves its two required
columns. -/
theorem load_error_classification (src : DatasetSource) :
    (_load_local_dataset src = .error .fileNotFound ↔ src.fileExists = false) ∧
    (_load_local_dataset src = .error .cannotReadCsv ↔
      (src.fileExists = true ∧ src.readUtf8Sig = none ∧ src.readUtf8 = none ∧
        src.readLatin1 = none)) ∧
    (_load_local_dataset src = .error .missingColumns ↔
      (src.fileExists = true ∧ ∃ raw, _read_kaggle_csv src = .ok raw ∧
        (_pick_col raw.columns itemCandidates = none ∨
          _pick_col raw.columns kcalCandidates = none))) ∧
    ((∃ out, _load_local_dataset src = .ok out) ↔
      (src.fileExists = true ∧ ∃ raw, _read_kaggle_csv src = .ok raw ∧
        _pick_col raw.columns itemCandidates ≠ none ∧
        _pick_col raw.columns kcalCandidates ≠ none)) := by
  rcases hfe : src.fileExists with _ | _
  · simp [_load_local_dataset, hfe]
  · rcases hread : _read_kaggle_csv src with e | raw
    · obtain ⟨he, h1, h2, h3⟩ := (read_kaggle_csv_error_iff src).1 e hread
      subst he
      refine ⟨?_, ?_, ?_, ?_⟩ <;>
        simp [_load_local_dataset, hfe, hread, h1, h2, h3]
    · have hok : ∀ e, _read_kaggle_csv src ≠ .error e := by
        intro e h
        rw [hread] at h
        cases h
      have hne : ¬(src.readUtf8Sig = none ∧ src.readUtf8 = none ∧ src.readLatin1 = none) := by
        intro h
        exact hok .cannotReadCsv ((read_kaggle_csv_error_iff src).2 h)
      obtain ⟨hmc, herr, hokiff⟩ := standardize_error_iff raw
      rcases hstd : _standardize_dataset raw with e | rows
      · have he := herr e hstd
        subst he
        have hcols := hmc.mp hstd
        refine ⟨?_, ?_, ?_, ?_⟩
        · simp [_load_local_dataset, hfe, hread, hstd]
        · simp [_load_local_dataset, hfe, hread, hstd, hne]
        · constructor
          · intro _
            exact ⟨rfl, raw, rfl, hcols⟩
          · intro _
            simp [_load_local_dataset, hfe, hread, hstd]
        · constructor
          · rintro ⟨out, hout⟩
            simp [_load_local_dataset, hfe, hread, hstd] at hout
          · rintro ⟨_, raw2, hraw2, hi2, hk2⟩
            cases hraw2
            rcases hcols with h | h
            · exact absurd h hi2
            · exact absurd h hk2
      · have hcols := hokiff.mp ⟨rows, hstd⟩
        refine ⟨?_, ?_, ?_, ?_⟩
        · simp [_load_local_dataset, hfe, hread, hstd]
        · simp [_load_local_dataset, hfe, hread, hstd, hne]
        · constructor
          · intro h
            simp [_load_local_dataset, hfe, hread, hstd] at h
          · rintro ⟨_, raw2, hraw2, hor⟩
            cases hraw2
            rcases hor with h | h
            · exact absurd h hcols.1
            · exact absurd h hcols.2
        · constructor
          · intro _
            exact ⟨rfl, raw, rfl, hcols⟩
          · intro _
            exact ⟨buildIndex rows, by simp [_load_local_dataset, hfe, hread, hstd]⟩

/-- Witness for C9: a source whose only decodable table has the schema
`["item", "calories"]` loads successfully; the same table with the
calories column renamed away fails with the schema error. -/
theorem load_error_classification_witness :
    (∃ out, _load_local_dataset ⟨true, some tblC4, none, none⟩ = .ok out) ∧
      _load_local_dataset ⟨true, some ⟨["item"], []⟩, none, none⟩ = .error .missingColumns :=
  ⟨(load_error_classification ⟨true, some tblC4, none, none⟩).2.2.2.mpr
      ⟨rfl, tblC4, rfl, by decide, by decide⟩,
    (load_error_classification ⟨true, some ⟨["item"], []⟩, none, none⟩).2.2.1.mpr
      ⟨rfl, ⟨["item"], []⟩, rfl, by decide⟩⟩

/- § C5: deduplication keeps the first survivor per key -/

theorem dedupAux_spec (l : List StdRow) : ∀ seen : List String,
    (∀ r ∈ dedupAux seen l,
      r.item_norm ∉ seen ∧ l.find? (fun s => s.item_norm == r.item_norm) = some r) ∧
    ((dedupAux seen l).map StdRow.item_norm).Nodup ∧
    (∀ s ∈ l, s.item_norm ∉ seen → ∃ r ∈ dedupAux seen l, r.item_norm = s.item_norm) := by
  induction l with
  | nil =>
    intro seen
    refine ⟨by simp [dedupAux], by simp [dedupAux], by simp⟩
  | cons t rs ih =>
    intro seen
    by_cases ht : seen.contains t.item_norm = true
    · have htm : t.item_norm ∈ seen := by simpa using ht
      have heq : dedupAux seen (t :: rs) = dedupAux seen rs := by
        simp only [dedupAux]
        rw [if_pos ht]
      refine ⟨?_, ?_, ?_⟩
      · intro r hr
        rw [heq] at hr
        obtain ⟨hnotin, hfind⟩ := (ih seen).1 r hr
        have hne : (t.item_norm == r.item_norm) = false := by
          rw [beq_eq_false_iff_ne]
          intro he
          exact hnotin (he ▸ htm)
        exact ⟨hnotin, by
          rw [find?_cons_neg (fun s => s.item_norm == r.item_norm) t rs hne]
          exact hfind⟩
      · rw [heq]
        exact (ih seen).2.1
      · intro s hs hnotin
        rw [heq]
        rcases List.mem_cons.mp hs with he | hs'
        · exact absurd (he ▸ htm) hnotin
        · exact (ih seen).2.2 s hs' hnotin
    · have htm : t.item_norm ∉ seen := by simpa using ht
      have heq : dedupAux seen (t :: rs) = t :: dedupAux (t.item_norm :: seen) rs := by
        simp only [dedupAux]
        rw [if_neg ht]
      have ihs := ih (t.item_norm :: seen)
      refine ⟨?_, ?_, ?_⟩
      · intro r hr
        rw [heq] at hr
        rcases List.mem_cons.mp hr with he | hr'
        · subst he
          exact ⟨htm, by
            rw [find?_cons_pos (fun s => s.item_norm == r.item_norm) r rs (by simp)]⟩
        · obtain ⟨hnotin, hfind⟩ := ihs.1 r hr'
          have hne : (t.item_norm == r.item_norm) = false := by
            rw [beq_eq_false_iff_ne]
            intro he
            exact hnotin (he ▸ List.mem_cons_self t.item_norm seen)
          refine ⟨fun hmem => hnotin (List.mem_cons_of_mem _ hmem), ?_⟩
          rw [find?_cons_neg (fun s => s.item_norm == r.item_norm) t rs hne]
          exact hfind
      · rw [heq]
        simp only [List.map_cons]
        refine List.nodup_cons.mpr ⟨?_, ihs.2.1⟩
        intro hmem
        rcases List.mem_map.mp hmem with ⟨r, hr, hre⟩
        exact (ihs.1 r hr).1 (hre ▸ List.mem_cons_self t.item_norm seen)
      · intro s hs hnotin
        rw [heq]
        rcases List.mem_cons.mp hs with he | hs'
        · exact ⟨t, List.mem_cons_self t _, by rw [he]⟩
        · by_cases hkey : s.item_norm = t.item_norm
          · exact ⟨t, List.mem_cons_self t _, hkey.symm⟩
          · have hnotin' : s.item_norm ∉ t.item_norm :: seen := by
              intro hmem
              rcases List.mem_cons.mp hmem with he | hm
              · exact hkey he
              · exact hnotin hm
            obtain ⟨r, hr, hre⟩ := ihs.2.2 s hs' hnotin'
            exact ⟨r, List.mem_cons_of_mem _ hr, hre⟩

theorem buildIndex_get (rows : List StdRow) :
    (rows.map StdRow.item_norm).Nodup →
    ∀ r ∈ rows, dictGet (buildIndex rows) r.item_norm = some (recOf r) := by
  induction rows with
  | nil => simp
  | cons p rs ih =>
    intro hnd r hr
    have hnd' : p.item_norm ∉ rs.map StdRow.item_norm ∧ (rs.map StdRow.item_norm).Nodup :=
      List.nodup_cons.mp hnd
    rcases List.mem_cons.mp hr with he | hr'
    · subst he
      unfold dictGet buildIndex
      simp only [List.map_cons]
      rw [find?_cons_pos (fun q => q.1 == r.item_norm) (r.item_norm, recOf r)
        (rs.map fun s => (s.item_norm, recOf s)) (by simp)]
      rfl
    · have hrk : r.item_norm ∈ rs.map StdRow.item_norm :=
        List.mem_map.mpr ⟨r, hr', rfl⟩
      have hne : (p.item_norm == r.item_norm) = false := by
        rw [beq_eq_false_iff_ne]
        intro he
        exact hnd'.1 (he ▸ hrk)
      have hih := ih hnd'.2 r hr'
      unfold dictGet buildIndex at hih ⊢
      simp only [List.map_cons]
      rw [find?_cons_neg (fun q => q.1 == r.item_norm) (p.item_norm, recOf p)
        (rs.map fun s => (s.item_norm, recOf s)) hne]
      exact hih

theorem standardize_ok_eq {tbl : RawTable} {out : List StdRow}
    (h : _standardize_dataset tbl = .ok out) :
    out = dedupRows (survivorRowsOf tbl) := by
  rcases hi : _pick_col tbl.columns itemCandidates with _ | ic
  · simp [_standardize_dataset, hi] at h
  · rcases hk : _pick_col tbl.columns kcalCandidates with _ | kc
    · simp [_standardize_dataset, hi, hk] at h
    · by_cases hg : ic = "" ∨ kc = ""
      · simp [_standardize_dataset, hi, hk, hg] at h
      · simp only [_standardize_dataset, hi, hk, if_neg hg] at h
        cases h
        simp only [survivorRowsOf, hi, hk]

/-- C5: standardization deduplicates by normalized key keeping the
first survivor: the standardized output has pairwise distinct
`item_norm` keys; every output row is exactly the earliest filtered row
with its key (hence carries the first row's display name and numeric
values); every surviving key is represented; and the index built from
the output maps each key to that first row's record. -/
theorem standardize_dedup_first_wins (tbl : RawTable) (out : List StdRow)
    (h : _standardize_dataset tbl = .ok out) :
    ((out.map StdRow.item_norm).Nodup) ∧
    (∀ r ∈ out, (survivorRowsOf tbl).find? (fun s => s.item_norm == r.item_norm) = some r) ∧
    (∀ s ∈ survivorRowsOf tbl, ∃ r ∈ out, r.item_norm = s.item_norm) ∧
    (∀ r ∈ out, dictGet (buildIndex out) r.item_norm = some (recOf r)) := by
  have hout := standardize_ok_eq h
  subst hout
  obtain ⟨h1, h2, h3⟩ := dedupAux_spec (survivorRowsOf tbl) []
  refine ⟨h2, ?_, ?_, ?_⟩
  · intro r hr
    exact (h1 r hr).2
  · intro s hs
    exact h3 s hs (by simp)
  · exact buildIndex_get _ h2

def tblC5 : RawTable :=
  ⟨["item", "calories"], [[some "Egg", some "155"], [some "EGG ", some "200"]]⟩

def outC5 : List StdRow :=
  [{ item := "Egg", calories := some (mkRat 155 1), protein := none, fat := none,
     carbs := none, item_norm := "EGG" }]

/-- Witness for C5: the spec's own example, rows "Egg" and "EGG " with
the same normalized key, keeps only the first row's record. -/
theorem standardize_dedup_first_wins_witness :
    ((outC5.map StdRow.item_norm).Nodup) ∧
    (∀ r ∈ outC5, (survivorRowsOf tblC5).find? (fun s => s.item_norm == r.item_norm) = some r) ∧
    (∀ s ∈ survivorRowsOf tblC5, ∃ r ∈ outC5, r.item_norm = s.item_norm) ∧
    (∀ r ∈ outC5, dictGet (buildIndex outC5) r.item_norm = some (recOf r)) :=
  standardize_dedup_first_wins tblC5 outC5 (by rfl)

/- § C4: required-field filtering (code bug: empty names survive) -/

/-- C4 evidence: on a table with an empty-name row with calories "50"
and a valid-name row with non-numeric calories "abc", standardization
keeps the empty-display-name row (contradicting the claimed
display_name filter, because `dropna` only removes NaN and the
`astype(str)` item column never contains NaN) and drops the
non-numeric-calories row (that half of the claim does hold). -/
theorem standardize_keeps_empty_display_name :
    _standardize_dataset tblC4 =
      .ok [{ item := "", calories := some (mkRat 50 1), protein := none, fat := none,
             carbs := none, item_norm := "" }] ∧
    to_numeric (some "abc") = none ∧
    to_numeric (some "") = none :=
  ⟨rfl, rfl, rfl⟩

/- § C3: fuzzy tier -/

theorem scoreDen_cast_pos {x w : List Char} (h : scoreDen x w ≠ 0) :
    (0 : Rat) < (scoreDen x w : Rat) :=
  Nat.cast_pos.mpr (Nat.pos_of_ne_zero h)

theorem ratioGeCutoff_iff (x w : List Char) :
    ratioGeCutoff x w = true ↔ scoreCutoff ≤ simScore x w := by
  unfold ratioGeCutoff simScore scoreCutoff
  by_cases h : scoreDen x w = 0
  · rw [if_pos h, if_pos h]
    norm_num
  · rw [if_neg h, if_neg h]
    simp only [decide_eq_true_eq]
    have hD := scoreDen_cast_pos h
    rw [div_le_div_iff₀ (by norm_num : (0:Rat) < 5) hD]
    constructor
    · intro hle
      have h2 : ((3 * scoreDen x w : Nat) : Rat) ≤ ((5 * scoreNum x w : Nat) : Rat) :=
        Nat.cast_le.mpr hle
      push_cast at h2
      linarith
    · intro hle
      have h2 : ((3 * scoreDen x w : Nat) : Rat) ≤ ((5 * scoreNum x w : Nat) : Rat) := by
        push_cast
        linarith
      exact_mod_cast h2

theorem ratioLt_iff (x y w : List Char) :
    ratioLt x y w = true ↔ simScore x w < simScore y w := by
  unfold ratioLt simScore
  by_cases hx : scoreDen x w = 0
  · rw [if_pos hx, if_pos hx]
    by_cases hy : scoreDen y w = 0
    · rw [if_pos hy, if_pos hy]
      simp
    · rw [if_neg hy, if_neg hy]
      simp only [decide_eq_true_eq]
      have hD := scoreDen_cast_pos hy
      rw [one_lt_div hD]
      exact ⟨fun h2 => Nat.cast_lt.mpr h2, fun h2 => Nat.cast_lt.mp h2⟩
  · rw [if_neg hx, if_neg hx]
    by_cases hy : scoreDen y w = 0
    · rw [if_pos hy, if_pos hy]
      simp only [decide_eq_true_eq]
      have hD := scoreDen_cast_pos hx
      rw [div_lt_one hD]
      exact ⟨fun h2 => Nat.cast_lt.mpr h2, fun h2 => Nat.cast_lt.mp h2⟩
    · rw [if_neg hy, if_neg hy]
      simp only [decide_eq_true_eq]
      have hDx := scoreDen_cast_pos hx
      have hDy := scoreDen_cast_pos hy
      rw [div_lt_div_iff₀ hDx hDy]
      constructor
      · intro hle
        have h2 : ((scoreNum x w * scoreDen y w : Nat) : Rat) <
            ((scoreNum y w * scoreDen x w : Nat) : Rat) := Nat.cast_lt.mpr hle
        push_cast at h2
        linarith
      · intro hle
        have h2 : ((scoreNum x w * scoreDen y w : Nat) : Rat) <
            ((scoreNum y w * scoreDen x w : Nat) : Rat) := by
          push_cast
          linarith
        exact_mod_cast h2

theorem ratioEq_iff (x y w : List Char) :
    ratioEq x y w = true ↔ simScore x w = simScore y w := by
  unfold ratioEq simScore
  by_cases hx : scoreDen x w = 0
  · rw [if_pos hx, if_pos hx]
    by_cases hy : scoreDen y w = 0
    · rw [if_pos hy, if_pos hy]
      simp
    · rw [if_neg hy, if_neg hy]
      simp only [decide_eq_true_eq]
      have hD := scoreDen_cast_pos hy
      have hiff : ((1 : Rat) = (scoreNum y w : Rat) / (scoreDen y w : Rat)) ↔
          ((scoreNum y w : Rat) = (scoreDen y w : Rat)) := by
        rw [eq_comm, div_eq_one_iff_eq (ne_of_gt hD)]
      rw [hiff]
      exact ⟨fun h2 => by exact_mod_cast h2, fun h2 => by exact_mod_cast h2⟩
  · rw [if_neg hx, if_neg hx]
    by_cases hy : scoreDen y w = 0
    · rw [if_pos hy, if_pos hy]
      simp only [decide_eq_true_eq]
      have hD := scoreDen_cast_pos hx
      rw [div_eq_one_iff_eq (ne_of_gt hD)]
      exact ⟨fun h2 => by exact_mod_cast h2, fun h2 => by exact_mod_cast h2⟩
    · rw [if_neg hy, if_neg hy]
      simp only [decide_eq_true_eq]
      have hDx := scoreDen_cast_pos hx
      have hDy := scoreDen_cast_pos hy
      rw [div_eq_div_iff (ne_of_gt hDx) (ne_of_gt hDy)]
      constructor
      · intro hle
        have h2 : ((scoreNum x w * scoreDen y w : Nat) : Rat) =
            ((scoreNum y w * scoreDen x w : Nat) : Rat) := by exact_mod_cast hle
        push_cast at h2
        linarith
      · intro hle
        have h2 : ((scoreNum x w * scoreDen y w : Nat) : Rat) =
            ((scoreNum y w * scoreDen x w : Nat) : Rat) := by
          push_cast
          linarith
        exact_mod_cast h2

theorem gcmFold_mem (w : List Char) (xs : List String) :
    ∀ x : String, gcmFold w x xs ∈ x :: xs := by
  induction xs with
  | nil =>
    intro x
    simp [gcmFold]
  | cons y ys ih =>
    intro x
    have heq : gcmFold w x (y :: ys) =
        gcmFold w (if ratioLt x.data y.data w || (ratioEq x.data y.data w && lexLtChars x.data y.data) then y else x) ys := by
      simp [gcmFold, List.foldl_cons]
    rw [heq]
    by_cases hc : (ratioLt x.data y.data w || (ratioEq x.data y.data w && lexLtChars x.data y.data)) = true
    · rw [if_pos hc]
      have := ih y
      rcases List.mem_cons.mp this with he | hm
      · rw [he]
        exact List.mem_cons_of_mem _ (List.mem_cons_self y ys)
      · exact List.mem_cons_of_mem _ (List.mem_cons_of_mem _ hm)
    · rw [if_neg hc]
      have := ih x
      rcases List.mem_cons.mp this with he | hm
      · rw [he]
        exact List.mem_cons_self x (y :: ys)
      · exact List.mem_cons_of_mem _ (List.mem_cons_of_mem _ hm)

theorem gcmFold_max (w : List Char) (xs : List String) :
    ∀ x : String, ∀ y ∈ x :: xs,
      simScore y.data w ≤ simScore (gcmFold w x xs).data w := by
  induction xs with
  | nil =>
    intro x y hy
    rcases List.mem_cons.mp hy with he | hm
    · rw [he]
      simp [gcmFold]
    · simp at hm
  | cons y0 ys ih =>
    intro x y hy
    have heq : gcmFold w x (y0 :: ys) =
        gcmFold w (if ratioLt x.data y0.data w || (ratioEq x.data y0.data w && lexLtChars x.data y0.data) then y0 else x) ys := by
      simp [gcmFold, List.foldl_cons]
    rw [heq]
    by_cases hc : (ratioLt x.data y0.data w || (ratioEq x.data y0.data w && lexLtChars x.data y0.data)) = true
    · rw [if_pos hc]
      have hxle : simScore x.data w ≤ simScore y0.data w := by
        rcases Bool.or_eq_true_iff.mp hc with h1 | h2
        · exact le_of_lt ((ratioLt_iff _ _ _).mp h1)
        · exact le_of_eq ((ratioEq_iff _ _ _).mp (Bool.and_eq_true_iff.mp h2).1)
      rcases List.mem_cons.mp hy with he | hm
      · rw [he]
        exact le_trans hxle (ih y0 y0 (List.mem_cons_self y0 ys))
      · rcases List.mem_cons.mp hm with he2 | hm2
        · rw [he2]
          exact ih y0 y0 (List.mem_cons_self y0 ys)
        · exact ih y0 y (List.mem_cons_of_mem _ hm2)
    · rw [if_neg hc]
      have hy0le : simScore y0.data w ≤ simScore x.data w := by
        have hlt : ratioLt x.data y0.data w = false := by
          rcases hb : ratioLt x.data y0.data w with _ | _
          · rfl
          · exact absurd (Bool.or_eq_true_iff.mpr (Or.inl hb)) hc
        have : ¬ simScore x.data w < simScore y0.data w := by
          intro hcon
          rw [← ratioLt_iff] at hcon
          rw [hlt] at hcon
          cases hcon
        exact le_of_not_lt this
      rcases List.mem_cons.mp hy with he | hm
      · rw [he]
        exact ih x x (List.mem_cons_self x ys)
      · rcases List.mem_cons.mp hm with he2 | hm2
        · rw [he2]
          exact le_trans hy0le (ih x x (List.mem_cons_self x ys))
        · exact ih x y (List.mem_cons_of_mem _ hm2)

/-- C3: when neither the exact nor the substring tier fires, the fuzzy
tier answers: if every key scores below the ~0.6 cutoff the lookup is
NotFound; any returned record belongs to a key at or above the cutoff
whose sequence-similarity ratio against the normalized query is
maximal over the whole key set; and some record is returned whenever a
key reaches the cutoff.  Concretely, "bananna" against the
single-key index "BANANA" returns the banana record and "zzzzxyz123"
returns NotFound. -/
theorem lookup_fuzzy_tier :
    (∀ (idx : List (String × FoodRec)) (food : String),
      dictGet idx (_norm_food_name food) = none →
      (∀ k ∈ idx.map Prod.fst, ¬ strIn (_norm_food_name food) k = true) →
      ((∀ k ∈ idx.map Prod.fst,
          simScore k.data (_norm_food_name food).data < scoreCutoff) →
        _lookup_food idx food = none) ∧
      (∀ r, _lookup_food idx food = some r →
        ∃ k ∈ idx.map Prod.fst, dictGet idx k = some r ∧
          scoreCutoff ≤ simScore k.data (_norm_food_name food).data ∧
          ∀ k2 ∈ idx.map Prod.fst,
            simScore k2.data (_norm_food_name food).data ≤
              simScore k.data (_norm_food_name food).data) ∧
      ((∃ k ∈ idx.map Prod.fst,
          scoreCutoff ≤ simScore k.data (_norm_food_name food).data) →
        ∃ r, _lookup_food idx food = some r)) ∧
    _lookup_food bananaIdx "bananna" = some bananaRec ∧
    _lookup_food bananaIdx "zzzzxyz123" = none := by
  refine ⟨?_, by decide, by decide⟩
  intro idx food hq hsub
  have hfil : ((idx.map Prod.fst).filter (fun k => strIn (_norm_food_name food) k)) = [] :=
    List.filter_eq_nil_iff.mpr hsub
  have hlf : _lookup_food idx food = fuzzyLookup idx (_norm_food_name food) := by
    simp [_lookup_food, hq, hfil]
  rcases hg : ((idx.map Prod.fst).filter
      (fun x => ratioGeCutoff x.data (_norm_food_name food).data)) with _ | ⟨x, xs⟩
  · have hnone : _lookup_food idx food = none := by
      rw [hlf]
      simp [fuzzyLookup, get_close_matches, hg]
    refine ⟨fun _ => hnone, ?_, ?_⟩
    · intro r hr
      rw [hnone] at hr
      cases hr
    · rintro ⟨k, hk, hge⟩
      have := List.filter_eq_nil_iff.mp hg k hk
      rw [← ratioGeCutoff_iff] at hge
      exact absurd hge this
  · set q := _norm_food_name food with hqdef
    set best := gcmFold q.data x xs with hbest
    have hmemfil : best ∈ (idx.map Prod.fst).filter
        (fun x => ratioGeCutoff x.data q.data) := by
      rw [hg]
      exact gcmFold_mem q.data xs x
    have hmemkeys : best ∈ idx.map Prod.fst := List.mem_of_mem_filter hmemfil
    have hbestge : scoreCutoff ≤ simScore best.data q.data :=
      (ratioGeCutoff_iff _ _).mp (List.mem_filter.mp hmemfil).2
    have hmax : ∀ k ∈ idx.map Prod.fst, simScore k.data q.data ≤ simScore best.data q.data := by
      intro k hk
      by_cases hc : ratioGeCutoff k.data q.data = true
      · have : k ∈ (idx.map Prod.fst).filter (fun x => ratioGeCutoff x.data q.data) :=
          List.mem_filter.mpr ⟨hk, hc⟩
        rw [hg] at this
        exact gcmFold_max q.data xs x k this
      · have : ¬ scoreCutoff ≤ simScore k.data q.data := by
          rw [← ratioGeCutoff_iff]
          simp [hc]
        exact le_trans (le_of_lt (lt_of_not_le this)) (le_trans hbestge (le_refl _))
    obtain ⟨r0, hr0⟩ := dictGet_isSome_of_mem hmemkeys
    have hlook : _lookup_food idx food = some r0 := by
      rw [hlf]
      simp only [fuzzyLookup, get_close_matches, hg]
      exact hr0
    refine ⟨?_, ?_, fun _ => ⟨r0, hlook⟩⟩
    · intro hall
      exact absurd hbestge (not_le_of_lt (hall best hmemkeys))
    · intro r hr
      rw [hlook] at hr
      cases hr
      exact ⟨best, hmemkeys, hr0, hbestge, hmax⟩

/-- Witness for C3: the misspelled banana query goes through the
cutoff-reached branch of the main theorem. -/
theorem lookup_fuzzy_tier_witness :
    ∃ r, _lookup_food bananaIdx "bananna" = some r :=
  (lookup_fuzzy_tier.1 bananaIdx "bananna" (by decide) (by decide)).2.2
    ⟨"BANANA", by decide,
      (ratioGeCutoff_iff "BANANA".data (_norm_food_name "bananna").data).mp (by decide)⟩

/- § list lemmas for the normalizer (claims C6, C7) -/

theorem length_dropWhile_le (p : Char → Bool) (l : List Char) :
    (l.dropWhile p).length ≤ l.length := by
  induction l with
  | nil => simp
  | cons c cs ih =>
    by_cases h : p c
    · rw [List.dropWhile_cons_of_pos h]
      exact Nat.le_trans ih (Nat.le_succ _)
    · rw [List.dropWhile_cons_of_neg h]

theorem head_dropWhile_not (p : Char → Bool) (l : List Char) {c : Char}
    (h : (l.dropWhile p).head? = some c) : p c = false := by
  induction l with
  | nil => simp at h
  | cons d ds ih =>
    by_cases hd : p d
    · rw [List.dropWhile_cons_of_pos hd] at h
      exact ih h
    · rw [List.dropWhile_cons_of_neg hd] at h
      cases h
      simpa using hd

theorem dropWhile_eq_self_of_head (p : Char → Bool) (l : List Char) {c : Char}
    (hh : l.head? = some c) (hc : p c = false) : l.dropWhile p = l := by
  cases l with
  | nil => rfl
  | cons d ds =>
    cases hh
    rw [List.dropWhile_cons_of_neg (by simp [hc])]

theorem rStrip_cons_eq (p : Char → Bool) (c : Char) (cs : List Char) :
    rStrip p (c :: cs) =
      if rStrip p cs = [] then (if p c then [] else [c]) else c :: rStrip p cs := by
  rcases h : rStrip p cs with _ | ⟨x, xs⟩
  · simp [rStrip, h]
  · simp [rStrip, h]

theorem rStrip_getLast_not (p : Char → Bool) (l : List Char) : ∀ {c : Char},
    (rStrip p l).getLast? = some c → p c = false := by
  induction l with
  | nil => intro c h; simp [rStrip] at h
  | cons d ds ih =>
    intro c h
    rw [rStrip_cons_eq] at h
    rcases hds : rStrip p ds with _ | ⟨x, xs⟩
    · rw [hds, if_pos rfl] at h
      by_cases hd : p d
      · rw [if_pos hd] at h
        simp at h
      · rw [if_neg hd] at h
        simp only [List.getLast?_singleton, Option.some.injEq] at h
        cases h
        simpa using hd
    · rw [hds] at h
      rw [if_neg (by simp)] at h
      rw [List.getLast?_cons_cons] at h
      rw [← hds] at h
      exact ih h

theorem rStrip_eq_self_of_getLast (p : Char → Bool) (l : List Char) : ∀ {c : Char},
    l.getLast? = some c → p c = false → rStrip p l = l := by
  induction l with
  | nil => intro c h _; simp at h
  | cons d ds ih =>
    intro c h hc
    cases ds with
    | nil =>
      simp only [List.getLast?_singleton, Option.some.injEq] at h
      cases h
      rw [rStrip_cons_eq]
      simp [rStrip, hc]
    | cons e es =>
      rw [List.getLast?_cons_cons] at h
      have hds : rStrip p (e :: es) = e :: es := ih h hc
      rw [rStrip_cons_eq, hds]
      rw [if_neg (by simp)]

theorem rStrip_eq_nil_iff (p : Char → Bool) (l : List Char) :
    rStrip p l = [] ↔ ∀ c ∈ l, p c = true := by
  induction l with
  | nil => simp [rStrip]
  | cons d ds ih =>
    rw [rStrip_cons_eq]
    rcases hds : rStrip p ds with _ | ⟨x, xs⟩
    · rw [if_pos rfl]
      have hall := ih.mp hds
      by_cases hd : p d
      · rw [if_pos hd]
        simp only [List.forall_mem_cons, hd, true_and]
        exact ⟨fun _ => hall, fun _ => trivial⟩
      · simp [List.forall_mem_cons, hd]
    · rw [if_neg (by simp)]
      constructor
      · intro h
        cases h
      · intro h
        have : rStrip p ds = [] := ih.mpr (fun c hc => h c (List.mem_cons_of_mem _ hc))
        rw [hds] at this
        cases this

theorem rStrip_cons_of_neg (p : Char → Bool) (c : Char) (cs : List Char) (hc : p c = false) :
    rStrip p (c :: cs) = c :: rStrip p cs := by
  rw [rStrip_cons_eq]
  rcases h : rStrip p cs with _ | ⟨x, xs⟩
  · rw [if_pos rfl, if_neg (by simp [hc])]
  · rw [if_neg (by simp)]

theorem rStrip_eq_self_of_all (p : Char → Bool) (l : List Char)
    (h : ∀ c ∈ l, p c = false) : rStrip p l = l := by
  induction l with
  | nil => rfl
  | cons d ds ih =>
    rw [rStrip_cons_of_neg p d ds (h d (List.mem_cons_self d ds))]
    rw [ih (fun c hc => h c (List.mem_cons_of_mem _ hc))]

theorem rStrip_append (p : Char → Bool) (xs ys : List Char) :
    rStrip p (xs ++ ys) =
      if rStrip p ys = [] then rStrip p xs else xs ++ rStrip p ys := by
  induction xs with
  | nil =>
    simp only [List.nil_append]
    by_cases h : rStrip p ys = []
    · rw [if_pos h, h]
      rfl
    · rw [if_neg h]
  | cons c cs ih =>
    by_cases h : rStrip p ys = []
    · rw [if_pos h] at ih ⊢
      rw [List.cons_append, rStrip_cons_eq, ih, ← rStrip_cons_eq]
    · rw [if_neg h] at ih ⊢
      have hne : cs ++ rStrip p ys ≠ [] := by
        simp [h]
      rw [List.cons_append, rStrip_cons_eq, ih, if_neg hne]
      rfl

theorem rStrip_head (p : Char → Bool) (l : List Char) (h : rStrip p l ≠ []) :
    (rStrip p l).head? = l.head? := by
  cases l with
  | nil => rfl
  | cons d ds =>
    rw [rStrip_cons_eq] at h ⊢
    rcases hds : rStrip p ds with _ | ⟨x, xs⟩
    · rw [hds, if_pos rfl] at h
      rw [if_pos rfl]
      by_cases hd : p d
      · rw [if_pos hd] at h
        exact absurd rfl h
      · rw [if_neg hd]
        rfl
    · rw [hds, if_neg (by simp)] at h
      rw [if_neg (by simp)]
      rfl

theorem rStrip_subset (p : Char → Bool) (l : List Char) : ∀ c ∈ rStrip p l, c ∈ l := by
  induction l with
  | nil => simp [rStrip]
  | cons d ds ih =>
    intro c hc
    rw [rStrip_cons_eq] at hc
    rcases hds : rStrip p ds with _ | ⟨x, xs⟩
    · rw [hds, if_pos rfl] at hc
      by_cases hd : p d
      · rw [if_pos hd] at hc
        simp at hc
      · rw [if_neg hd] at hc
        simp only [List.mem_singleton] at hc
        exact hc ▸ List.mem_cons_self d ds
    · rw [hds, if_neg (by simp)] at hc
      rcases List.mem_cons.mp hc with he | hm
      · exact he ▸ List.mem_cons_self d ds
      · exact List.mem_cons_of_mem _ (ih c (hds ▸ hm))

theorem pyStrip_head_not (p : Char → Bool) (l : List Char) {c : Char}
    (h : (pyStrip p l).head? = some c) : p c = false := by
  unfold pyStrip at h
  have hne : rStrip p (l.dropWhile p) ≠ [] := by
    intro hnil
    rw [hnil] at h
    cases h
  rw [rStrip_head p _ hne] at h
  exact head_dropWhile_not p l h

theorem pyStrip_getLast_not (p : Char → Bool) (l : List Char) {c : Char}
    (h : (pyStrip p l).getLast? = some c) : p c = false :=
  rStrip_getLast_not p _ h

theorem pyStrip_subset (p : Char → Bool) (l : List Char) : ∀ c ∈ pyStrip p l, c ∈ l := by
  intro c hc
  exact (List.dropWhile_sublist p).subset (rStrip_subset p _ c hc)

theorem splitWsAux_acc (l : List Char) : ∀ acc : List Char, acc ≠ [] →
    splitWsAux l acc =
      (acc.reverse ++ l.takeWhile (fun c => !pyIsSpace c)) ::
        splitWs (l.dropWhile (fun c => !pyIsSpace c)) := by
  induction l with
  | nil =>
    intro acc hacc
    simp [splitWsAux, hacc, splitWs]
  | cons c cs ih =>
    intro acc hacc
    by_cases hws : pyIsSpace c = true
    · have h1 : splitWsAux (c :: cs) acc = acc.reverse :: splitWsAux cs [] := by
        simp only [splitWsAux]
        rw [if_pos hws, if_neg hacc]
      have h2 : splitWs (c :: cs) = splitWsAux cs [] := by
        simp only [splitWs, splitWsAux]
        rw [if_pos hws, if_pos (by decide)]
      rw [h1, List.takeWhile_cons_of_neg (by simp [hws]),
        List.dropWhile_cons_of_neg (by simp [hws]), List.append_nil, h2]
    · have hnws : pyIsSpace c = false := by simpa using hws
      have h1 : splitWsAux (c :: cs) acc = splitWsAux cs (c :: acc) := by
        simp only [splitWsAux]
        rw [if_neg (by simp [hnws])]
      rw [h1, ih (c :: acc) (by simp),
        List.takeWhile_cons_of_pos (by simp [hnws]),
        List.dropWhile_cons_of_pos (by simp [hnws])]
      simp

theorem splitWs_cons_of_ws {c : Char} {cs : List Char} (h : pyIsSpace c = true) :
    splitWs (c :: cs) = splitWs cs := by
  simp only [splitWs, splitWsAux]
  rw [if_pos h, if_pos (by decide)]

theorem splitWs_cons_of_nws {c : Char} {cs : List Char} (h : pyIsSpace c = false) :
    splitWs (c :: cs) =
      (c :: cs.takeWhile (fun c => !pyIsSpace c)) ::
        splitWs (cs.dropWhile (fun c => !pyIsSpace c)) := by
  have h1 : splitWs (c :: cs) = splitWsAux cs [c] := by
    simp only [splitWs, splitWsAux]
    rw [if_neg (by simp [h])]
  rw [h1, splitWsAux_acc cs [c] (by simp)]
  rfl

theorem splitWs_eq_nil_iff : ∀ m : List Char, splitWs m = [] ↔ ∀ c ∈ m, pyIsSpace c = true
  | [] => by simp [splitWs, splitWsAux]
  | c :: cs => by
    by_cases h : pyIsSpace c = true
    · rw [splitWs_cons_of_ws h, splitWs_eq_nil_iff cs]
      simp [List.forall_mem_cons, h]
    · rw [splitWs_cons_of_nws (by simpa using h)]
      simp [List.forall_mem_cons, h]
termination_by m => m.length

theorem collapseAux_cons_ws_true {d : Char} {ds : List Char} (h : pyIsSpace d = true) :
    collapseAux (d :: ds) true = collapseAux ds true := by
  simp only [collapseAux]
  rw [if_pos h, if_pos (by decide)]

theorem collapseAux_cons_ws_false {d : Char} {ds : List Char} (h : pyIsSpace d = true) :
    collapseAux (d :: ds) false = ' ' :: collapseAux ds true := by
  simp only [collapseAux]
  rw [if_pos h, if_neg (by decide)]

theorem collapseAux_cons_nws {d : Char} {ds : List Char} (b : Bool) (h : pyIsSpace d = false) :
    collapseAux (d :: ds) b = d :: collapseAux ds false := by
  simp only [collapseAux]
  rw [if_neg (by simp [h])]

theorem dropWhile_collapseAux (cs : List Char) :
    (collapseAux cs true).dropWhile pyIsSpace = (collapseAux cs false).dropWhile pyIsSpace := by
  cases cs with
  | nil => rfl
  | cons d ds =>
    by_cases hd : pyIsSpace d = true
    · rw [collapseAux_cons_ws_true hd, collapseAux_cons_ws_false hd,
        List.dropWhile_cons_of_pos (by decide : pyIsSpace ' ' = true)]
    · have hd' : pyIsSpace d = false := by simpa using hd
      rw [collapseAux_cons_nws true hd', collapseAux_cons_nws false hd']

theorem collapseAux_append_nws (u : List Char) : ∀ tw : List Char,
    (∀ c ∈ tw, pyIsSpace c = false) →
    collapseAux (tw ++ u) false = tw ++ collapseAux u false := by
  intro tw
  induction tw with
  | nil => intro _; rfl
  | cons d ds ih =>
    intro h
    rw [List.cons_append, collapseAux_cons_nws false (h d (List.mem_cons_self d ds)),
      ih (fun c hc => h c (List.mem_cons_of_mem _ hc))]
    rfl

theorem collapseAux_true_of_all_ws (u : List Char) (h : ∀ c ∈ u, pyIsSpace c = true) :
    collapseAux u true = [] := by
  induction u with
  | nil => rfl
  | cons d ds ih =>
    rw [collapseAux_cons_ws_true (h d (List.mem_cons_self d ds))]
    exact ih (fun c hc => h c (List.mem_cons_of_mem _ hc))

theorem collapseAux_mem_nws (u : List Char) : ∀ b : Bool,
    (∃ c ∈ u, pyIsSpace c = false) → ∃ c ∈ collapseAux u b, pyIsSpace c = false := by
  induction u with
  | nil =>
    intro b h
    simp at h
  | cons d ds ih =>
    intro b h
    by_cases hd : pyIsSpace d = true
    · obtain ⟨c, hc, hcw⟩ := h
      have hcds : c ∈ ds := by
        rcases List.mem_cons.mp hc with he | hm
        · rw [he] at hcw
          rw [hcw] at hd
          cases hd
        · exact hm
      cases b with
      | true =>
        rw [collapseAux_cons_ws_true hd]
        exact ih true ⟨c, hcds, hcw⟩
      | false =>
        rw [collapseAux_cons_ws_false hd]
        obtain ⟨c2, hc2, hc2w⟩ := ih true ⟨c, hcds, hcw⟩
        exact ⟨c2, List.mem_cons_of_mem _ hc2, hc2w⟩
    · have hd' : pyIsSpace d = false := by simpa using hd
      rw [collapseAux_cons_nws b hd']
      exact ⟨d, List.mem_cons_self d _, hd'⟩

theorem collapseAux_true_head (u : List Char) :
    collapseAux u true = [] ∨
      ∃ d ds', collapseAux u true = d :: ds' ∧ pyIsSpace d = false := by
  induction u with
  | nil => exact Or.inl rfl
  | cons e es ih =>
    by_cases he : pyIsSpace e = true
    · rw [collapseAux_cons_ws_true he]
      exact ih
    · have he' : pyIsSpace e = false := by simpa using he
      rw [collapseAux_cons_nws true he']
      exact Or.inr ⟨e, collapseAux es false, rfl, he'⟩

theorem joinSp_splitWs : ∀ m : List Char,
    joinSp (splitWs m) = pyStrip pyIsSpace (collapseRuns m)
  | [] => rfl
  | c :: cs => by
    by_cases hws : pyIsSpace c = true
    · rw [splitWs_cons_of_ws hws]
      have hrhs : pyStrip pyIsSpace (collapseRuns (c :: cs)) =
          pyStrip pyIsSpace (collapseRuns cs) := by
        show rStrip pyIsSpace ((collapseRuns (c :: cs)).dropWhile pyIsSpace) = _
        rw [show collapseRuns (c :: cs) = ' ' :: collapseAux cs true from
            collapseAux_cons_ws_false hws,
          List.dropWhile_cons_of_pos (by decide : pyIsSpace ' ' = true),
          dropWhile_collapseAux]
        rfl
      rw [hrhs]
      exact joinSp_splitWs cs
    · have hnws : pyIsSpace c = false := by simpa using hws
      rw [splitWs_cons_of_nws hnws]
      have htw : ∀ c2 ∈ cs.takeWhile (fun c => !pyIsSpace c), pyIsSpace c2 = false := by
        intro c2 hc2
        have h3 := List.mem_takeWhile_imp hc2
        simpa using h3
      have hrhs : pyStrip pyIsSpace (collapseRuns (c :: cs)) =
          c :: rStrip pyIsSpace (collapseRuns cs) := by
        show rStrip pyIsSpace ((collapseRuns (c :: cs)).dropWhile pyIsSpace) = _
        rw [show collapseRuns (c :: cs) = c :: collapseRuns cs from
            collapseAux_cons_nws false hnws,
          List.dropWhile_cons_of_neg (by simp [hnws]),
          rStrip_cons_of_neg pyIsSpace c _ hnws]
      rw [hrhs]
      show (c :: cs.takeWhile (fun c => !pyIsSpace c)) ++
          joinSpRest (splitWs (cs.dropWhile (fun c => !pyIsSpace c))) =
        c :: rStrip pyIsSpace (collapseRuns cs)
      rw [List.cons_append]
      congr 1
      have hsplit := List.takeWhile_append_dropWhile (fun c => !pyIsSpace c) cs
      have hcr : collapseRuns cs =
          cs.takeWhile (fun c => !pyIsSpace c) ++
            collapseAux (cs.dropWhile (fun c => !pyIsSpace c)) false := by
        conv_lhs => rw [← hsplit]
        exact collapseAux_append_nws _ _ htw
      rw [hcr, rStrip_append]
      rcases hS : splitWs (cs.dropWhile (fun c => !pyIsSpace c)) with _ | ⟨w2, S2⟩
      · have hallws : ∀ c2 ∈ cs.dropWhile (fun c => !pyIsSpace c), pyIsSpace c2 = true :=
          (splitWs_eq_nil_iff _).mp hS
        have hnil : rStrip pyIsSpace
            (collapseAux (cs.dropWhile (fun c => !pyIsSpace c)) false) = [] := by
          rcases hdw : cs.dropWhile (fun c => !pyIsSpace c) with _ | ⟨e, dw2⟩
          · rfl
          · rw [hdw] at hallws
            rw [collapseAux_cons_ws_false (hallws e (List.mem_cons_self e dw2))]
            rw [collapseAux_true_of_all_ws dw2
              (fun c2 hc2 => hallws c2 (List.mem_cons_of_mem _ hc2))]
            rw [rStrip_eq_nil_iff]
            intro c2 hc2
            simp only [List.mem_singleton] at hc2
            rw [hc2]
            decide
        rw [if_pos hnil, rStrip_eq_self_of_all pyIsSpace _ htw,
          show joinSpRest ([] : List (List Char)) = [] from rfl, List.append_nil]
      · have hne : ∃ c2 ∈ cs.dropWhile (fun c => !pyIsSpace c), pyIsSpace c2 = false := by
          by_contra hcon
          push_neg at hcon
          have hanil : splitWs (cs.dropWhile (fun c => !pyIsSpace c)) = [] := by
            rw [splitWs_eq_nil_iff]
            intro c2 hc2
            have h4 := hcon c2 hc2
            simpa using h4
          rw [hS] at hanil
          cases hanil
        obtain ⟨e, dw2, hdw⟩ :
            ∃ e dw2, cs.dropWhile (fun c => !pyIsSpace c) = e :: dw2 := by
          rcases h5 : cs.dropWhile (fun c => !pyIsSpace c) with _ | ⟨e, dw2⟩
          · rw [h5] at hS
            simp [splitWs, splitWsAux] at hS
          · exact ⟨e, dw2, rfl⟩
        have hews : pyIsSpace e = true := by
          have h3 : (!pyIsSpace e) = false :=
            head_dropWhile_not (fun c => !pyIsSpace c) cs (by rw [hdw]; rfl)
          simpa using h3
        have hmem2 : ∃ c2 ∈ dw2, pyIsSpace c2 = false := by
          obtain ⟨c2, hc2, hc2w⟩ := hne
          rw [hdw] at hc2
          rcases List.mem_cons.mp hc2 with he2 | hm2
          · rw [he2] at hc2w
            rw [hc2w] at hews
            cases hews
          · exact ⟨c2, hm2, hc2w⟩
        have hX := collapseAux_mem_nws dw2 true hmem2
        have hXne : rStrip pyIsSpace (collapseAux dw2 true) ≠ [] := by
          intro hnil
          obtain ⟨c2, hc2, hc2w⟩ := hX
          have h6 := (rStrip_eq_nil_iff pyIsSpace _).mp hnil c2 hc2
          rw [h6] at hc2w
          cases hc2w
        have hcoll : collapseAux (cs.dropWhile (fun c => !pyIsSpace c)) false =
            ' ' :: collapseAux dw2 true := by
          rw [hdw]
          exact collapseAux_cons_ws_false hews
        have hcons : rStrip pyIsSpace
            (collapseAux (cs.dropWhile (fun c => !pyIsSpace c)) false) =
            ' ' :: rStrip pyIsSpace (collapseAux dw2 true) := by
          rw [hcoll, rStrip_cons_eq, if_neg hXne]
        rw [if_neg (by rw [hcons]; simp), hcons]
        have hdrop : (collapseAux dw2 true).dropWhile pyIsSpace = collapseAux dw2 true := by
          rcases collapseAux_true_head dw2 with hnil2 | ⟨d2, ds2, hd2, hd2w⟩
          · rw [hnil2]
            rfl
          · rw [hd2, List.dropWhile_cons_of_neg (by simp [hd2w])]
        have hih : joinSp (w2 :: S2) = rStrip pyIsSpace (collapseAux dw2 true) := by
          have h0 := joinSp_splitWs (cs.dropWhile (fun c => !pyIsSpace c))
          rw [hS] at h0
          rw [h0]
          show rStrip pyIsSpace
            ((collapseAux (cs.dropWhile (fun c => !pyIsSpace c)) false).dropWhile pyIsSpace) = _
          rw [hcoll, List.dropWhile_cons_of_pos (by decide : pyIsSpace ' ' = true), hdrop]
        have htail : joinSpRest (w2 :: S2) =
            ' ' :: rStrip pyIsSpace (collapseAux dw2 true) := by
          show ' ' :: (w2 ++ joinSpRest S2) = _
          rw [show w2 ++ joinSpRest S2 = joinSp (w2 :: S2) from rfl, hih]
        rw [htail]
termination_by m => m.length
decreasing_by
  · simp only [List.length_cons]
    omega
  · have := length_dropWhile_le (fun c => !pyIsSpace c) cs
    simp only [List.length_cons]
    omega

/- § C6: the normalizer follows the spec's step description -/

/-- C6: `_norm_food_name` computes exactly the spec's recipe — trim,
iteratively strip the fixed punctuation set from both ends only,
uppercase, collapse whitespace runs to a single space and trim again
(`specNormalize`); consequently `"  chicken   Breast "` and
`"CHICKEN BREAST"` normalize identically, and absent input produces
the empty string. -/
theorem norm_follows_spec :
    (∀ s : String, _norm_food_name s = specNormalize s) ∧
    normOpt none = "" ∧
    _norm_food_name "  chicken   Breast " = _norm_food_name "CHICKEN BREAST" := by
  refine ⟨?_, rfl, by decide⟩
  intro s
  unfold _norm_food_name specNormalize normChars
  exact congrArg String.mk (joinSp_splitWs _)

/- § further word-level lemmas (claim C7) -/

theorem getLast?_cons_of_ne_nil (a : Char) (l : List Char) (h : l ≠ []) :
    (a :: l).getLast? = l.getLast? := by
  cases l with
  | nil => exact absurd rfl h
  | cons b bs => exact List.getLast?_cons_cons

theorem getLast?_append_right (pre X : List Char) (h : X ≠ []) :
    (pre ++ X).getLast? = X.getLast? := by
  induction pre with
  | nil => rfl
  | cons d ds ih =>
    rw [List.cons_append, getLast?_cons_of_ne_nil d (ds ++ X) (by simp [h]), ih]

theorem exists_getLast_of_ne_nil : ∀ l : List Char, l ≠ [] → ∃ c, l.getLast? = some c
  | [], h => absurd rfl h
  | [d], _ => ⟨d, rfl⟩
  | d :: e :: es, _ => by
    obtain ⟨c, hc⟩ := exists_getLast_of_ne_nil (e :: es) (by simp)
    exact ⟨c, by rw [List.getLast?_cons_cons]; exact hc⟩

theorem mem_of_getLast?_eq : ∀ (l : List Char) {c : Char}, l.getLast? = some c → c ∈ l
  | [], _, h => by simp at h
  | [d], c, h => by
    simp only [List.getLast?_singleton, Option.some.injEq] at h
    rw [← h]
    exact List.mem_cons_self d _
  | d :: e :: es, c, h => by
    rw [List.getLast?_cons_cons] at h
    exact List.mem_cons_of_mem _ (mem_of_getLast?_eq (e :: es) h)

theorem splitWs_words : ∀ m : List Char, ∀ w ∈ splitWs m,
    w ≠ [] ∧ ∀ c ∈ w, pyIsSpace c = false
  | [] => by
    intro w hw
    simp [splitWs, splitWsAux] at hw
  | c :: cs => by
    intro w hw
    by_cases h : pyIsSpace c = true
    · rw [splitWs_cons_of_ws h] at hw
      exact splitWs_words cs w hw
    · have h' : pyIsSpace c = false := by simpa using h
      rw [splitWs_cons_of_nws h'] at hw
      rcases List.mem_cons.mp hw with he | hm
      · subst he
        refine ⟨by simp, ?_⟩
        intro c2 hc2
        rcases List.mem_cons.mp hc2 with he2 | hm2
        · rw [he2]
          exact h'
        · have h3 := List.mem_takeWhile_imp hm2
          simpa using h3
      · exact splitWs_words (cs.dropWhile (fun c => !pyIsSpace c)) w hm
termination_by m => m.length
decreasing_by
  · simp only [List.length_cons]
    omega
  · have := length_dropWhile_le (fun c => !pyIsSpace c) cs
    simp only [List.length_cons]
    omega

theorem splitWs_chars : ∀ m : List Char, ∀ w ∈ splitWs m, ∀ c ∈ w, c ∈ m
  | [] => by
    intro w hw
    simp [splitWs, splitWsAux] at hw
  | c :: cs => by
    intro w hw c2 hc2
    by_cases h : pyIsSpace c = true
    · rw [splitWs_cons_of_ws h] at hw
      exact List.mem_cons_of_mem _ (splitWs_chars cs w hw c2 hc2)
    · have h' : pyIsSpace c = false := by simpa using h
      rw [splitWs_cons_of_nws h'] at hw
      rcases List.mem_cons.mp hw with he | hm
      · subst he
        rcases List.mem_cons.mp hc2 with he2 | hm2
        · rw [he2]
          exact List.mem_cons_self c cs
        · exact List.mem_cons_of_mem _ ((List.takeWhile_sublist _).subset hm2)
      · exact List.mem_cons_of_mem _
          ((List.dropWhile_sublist _).subset
            (splitWs_chars (cs.dropWhile (fun c => !pyIsSpace c)) w hm c2 hc2))
termination_by m => m.length
decreasing_by
  · simp only [List.length_cons]
    omega
  · have := length_dropWhile_le (fun c => !pyIsSpace c) cs
    simp only [List.length_cons]
    omega

theorem splitWs_head : ∀ m : List Char, ∀ w W', splitWs m = w :: W' →
    w.head? = (m.dropWhile pyIsSpace).head?
  | [] => by
    intro w W' h
    simp [splitWs, splitWsAux] at h
  | c :: cs => by
    intro w W' h
    by_cases hc : pyIsSpace c = true
    · rw [splitWs_cons_of_ws hc] at h
      rw [List.dropWhile_cons_of_pos hc]
      exact splitWs_head cs w W' h
    · have hc' : pyIsSpace c = false := by simpa using hc
      rw [splitWs_cons_of_nws hc'] at h
      injection h with h1 _
      rw [← h1, List.dropWhile_cons_of_neg (by simp [hc'])]
      rfl
termination_by m => m.length
decreasing_by
  simp only [List.length_cons]
  omega

theorem joinSpRest_cons (w : List Char) (ws : List (List Char)) :
    joinSpRest (w :: ws) = ' ' :: joinSp (w :: ws) := rfl

theorem splitWs_getLast : ∀ m : List Char,
    (joinSp (splitWs m)).getLast? = (rStrip pyIsSpace m).getLast?
  | [] => rfl
  | c :: cs => by
    by_cases hc : pyIsSpace c = true
    · rw [splitWs_cons_of_ws hc, splitWs_getLast cs, rStrip_cons_eq]
      rcases hcs : rStrip pyIsSpace cs with _ | ⟨x, xs⟩
      · rw [if_pos rfl, if_pos hc]
      · rw [if_neg (by simp), List.getLast?_cons_cons]
    · have hc' : pyIsSpace c = false := by simpa using hc
      rw [splitWs_cons_of_nws hc', rStrip_cons_of_neg pyIsSpace c cs hc']
      have hsplit := List.takeWhile_append_dropWhile (fun c => !pyIsSpace c) cs
      have htw : ∀ c2 ∈ cs.takeWhile (fun c => !pyIsSpace c), pyIsSpace c2 = false := by
        intro c2 hc2
        have h3 := List.mem_takeWhile_imp hc2
        simpa using h3
      have htwself : rStrip pyIsSpace (cs.takeWhile (fun c => !pyIsSpace c)) =
          cs.takeWhile (fun c => !pyIsSpace c) :=
        rStrip_eq_self_of_all pyIsSpace _ htw
      rcases hS : splitWs (cs.dropWhile (fun c => !pyIsSpace c)) with _ | ⟨w2, S2⟩
      · have hallws : ∀ c2 ∈ cs.dropWhile (fun c => !pyIsSpace c), pyIsSpace c2 = true :=
          (splitWs_eq_nil_iff _).mp hS
        have hdwnil : rStrip pyIsSpace (cs.dropWhile (fun c => !pyIsSpace c)) = [] :=
          (rStrip_eq_nil_iff pyIsSpace _).mpr hallws
        have hcs : rStrip pyIsSpace cs = cs.takeWhile (fun c => !pyIsSpace c) := by
          conv_lhs => rw [← hsplit]
          rw [rStrip_append, if_pos hdwnil, htwself]
        rw [hcs]
        show ((c :: cs.takeWhile (fun c => !pyIsSpace c)) ++ joinSpRest []).getLast? = _
        rw [show joinSpRest ([] : List (List Char)) = [] from rfl, List.append_nil]
      · have hdwne : rStrip pyIsSpace (cs.dropWhile (fun c => !pyIsSpace c)) ≠ [] := by
          intro hnil
          have hallws := (rStrip_eq_nil_iff pyIsSpace _).mp hnil
          have : splitWs (cs.dropWhile (fun c => !pyIsSpace c)) = [] :=
            (splitWs_eq_nil_iff _).mpr hallws
          rw [hS] at this
          cases this
        have hcs : rStrip pyIsSpace cs =
            cs.takeWhile (fun c => !pyIsSpace c) ++
              rStrip pyIsSpace (cs.dropWhile (fun c => !pyIsSpace c)) := by
          conv_lhs => rw [← hsplit]
          rw [rStrip_append, if_neg hdwne]
        have hw2ne : w2 ≠ [] :=
          (splitWs_words (cs.dropWhile (fun c => !pyIsSpace c)) w2
            (by rw [hS]; exact List.mem_cons_self _ _)).1
        have hjne : joinSp (w2 :: S2) ≠ [] := by
          show w2 ++ joinSpRest S2 ≠ []
          simp [hw2ne]
        have hlhs :
            (joinSp ((c :: cs.takeWhile (fun c => !pyIsSpace c)) :: w2 :: S2)).getLast? =
              (joinSp (w2 :: S2)).getLast? := by
          show ((c :: cs.takeWhile (fun c => !pyIsSpace c)) ++
            joinSpRest (w2 :: S2)).getLast? = _
          rw [joinSpRest_cons, getLast?_append_right _ _ (by simp),
            getLast?_cons_of_ne_nil ' ' _ hjne]
        rw [hlhs, ← hS, splitWs_getLast (cs.dropWhile (fun c => !pyIsSpace c)), hcs,
          getLast?_cons_of_ne_nil c _ (by simp [hdwne]),
          getLast?_append_right _ _ hdwne]
termination_by m => m.length
decreasing_by
  · simp only [List.length_cons]
    omega
  · have := length_dropWhile_le (fun c => !pyIsSpace c) cs
    simp only [List.length_cons]
    omega

/- § ASCII upper-case mapping facts (claim C7) -/

theorem toNat_ofNat_valid (n : Nat) (h : n.isValidChar) : (Char.ofNat n).toNat = n := by
  simp only [Char.ofNat, h, dif_pos, Char.ofNatAux, Char.toNat, UInt32.toNat]
  simp

theorem toUpper_toNat (c : Char) (h : 97 ≤ c.toNat ∧ c.toNat ≤ 122) :
    c.toUpper.toNat = c.toNat - 32 := by
  have hv : (c.toNat - 32).isValidChar := Or.inl (by omega)
  show (if c.toNat ≥ 97 ∧ c.toNat ≤ 122 then Char.ofNat (c.toNat - 32) else c).toNat
    = c.toNat - 32
  rw [if_pos ⟨h.1, h.2⟩]
  exact toNat_ofNat_valid _ hv

theorem toUpper_eq_self (c : Char) (h : ¬(97 ≤ c.toNat ∧ c.toNat ≤ 122)) :
    c.toUpper = c := by
  show (if c.toNat ≥ 97 ∧ c.toNat ≤ 122 then Char.ofNat (c.toNat - 32) else c) = c
  rw [if_neg h]

theorem toUpper_idem (c : Char) : c.toUpper.toUpper = c.toUpper := by
  by_cases h : 97 ≤ c.toNat ∧ c.toNat ≤ 122
  · have h1 : c.toUpper.toNat = c.toNat - 32 := toUpper_toNat c h
    apply toUpper_eq_self
    rw [h1]
    intro hcon
    omega
  · rw [toUpper_eq_self c h, toUpper_eq_self c h]

theorem pyIsSpace_toUpper (c : Char) : pyIsSpace c.toUpper = pyIsSpace c := by
  by_cases h : 97 ≤ c.toNat ∧ c.toNat ≤ 122
  · obtain ⟨ha, hb⟩ := h
    have h1 : c.toUpper.toNat = c.toNat - 32 := toUpper_toNat c ⟨ha, hb⟩
    have hl : pyIsSpace c.toUpper = false := by
      unfold pyIsSpace
      rw [h1]
      simp only [Bool.or_eq_false_iff, decide_eq_false_iff_not]
      omega
    have hr : pyIsSpace c = false := by
      unfold pyIsSpace
      simp only [Bool.or_eq_false_iff, decide_eq_false_iff_not]
      omega
    rw [hl, hr]
  · rw [toUpper_eq_self c h]

theorem inStripSet_toUpper (c : Char) : inStripSet c.toUpper = inStripSet c := by
  by_cases h : 97 ≤ c.toNat ∧ c.toNat ≤ 122
  · obtain ⟨ha, hb⟩ := h
    have h1 : c.toUpper.toNat = c.toNat - 32 := toUpper_toNat c ⟨ha, hb⟩
    have hl : inStripSet c.toUpper = false := by
      simp only [inStripSet, stripSetCodes, h1, List.contains_cons,
        List.contains_nil, Bool.or_eq_false_iff, beq_eq_false_iff_ne, ne_eq, and_true]
      omega
    have hr : inStripSet c = false := by
      simp only [inStripSet, stripSetCodes, List.contains_cons,
        List.contains_nil, Bool.or_eq_false_iff, beq_eq_false_iff_ne, ne_eq, and_true]
      omega
    rw [hl, hr]
  · rw [toUpper_eq_self c h]

/- § joining and re-splitting (claim C7) -/

theorem mem_of_head?_eq : ∀ (l : List Char) {c : Char}, l.head? = some c → c ∈ l
  | [], _, h => by cases h
  | d :: ds, c, h => by
    cases h
    exact List.mem_cons_self d ds

theorem takeWhile_append_all (p : Char → Bool) (xs ys : List Char)
    (h : ∀ x ∈ xs, p x = true) : (xs ++ ys).takeWhile p = xs ++ ys.takeWhile p := by
  induction xs with
  | nil => rfl
  | cons d ds ih =>
    rw [List.cons_append, List.takeWhile_cons_of_pos (h d (List.mem_cons_self d ds)),
      ih (fun x hx => h x (List.mem_cons_of_mem _ hx)), List.cons_append]

theorem dropWhile_append_all (p : Char → Bool) (xs ys : List Char)
    (h : ∀ x ∈ xs, p x = true) : (xs ++ ys).dropWhile p = ys.dropWhile p := by
  induction xs with
  | nil => rfl
  | cons d ds ih =>
    rw [List.cons_append, List.dropWhile_cons_of_pos (h d (List.mem_cons_self d ds)),
      ih (fun x hx => h x (List.mem_cons_of_mem _ hx))]

theorem joinSp_mem (W : List (List Char)) :
    ∀ c ∈ joinSp W, c = ' ' ∨ ∃ w ∈ W, c ∈ w := by
  induction W with
  | nil =>
    intro c hc
    simp [joinSp] at hc
  | cons w ws ih =>
    intro c hc
    rw [show joinSp (w :: ws) = w ++ joinSpRest ws from rfl] at hc
    rcases List.mem_append.mp hc with h1 | h2
    · exact Or.inr ⟨w, List.mem_cons_self _ _, h1⟩
    · cases ws with
      | nil => simp [joinSpRest] at h2
      | cons w2 ws2 =>
        rw [joinSpRest_cons] at h2
        rcases List.mem_cons.mp h2 with he | hm
        · exact Or.inl he
        · rcases ih c hm with h3 | ⟨w3, hw3, hc3⟩
          · exact Or.inl h3
          · exact Or.inr ⟨w3, List.mem_cons_of_mem _ hw3, hc3⟩

theorem splitWs_joinSp : ∀ W : List (List Char),
    (∀ w ∈ W, w ≠ [] ∧ ∀ c ∈ w, pyIsSpace c = false) → splitWs (joinSp W) = W
  | [], _ => rfl
  | [] :: _, h => absurd rfl (h [] (List.mem_cons_self _ _)).1
  | [c :: cs], h => by
    have hcs : ∀ x ∈ cs, pyIsSpace x = false :=
      fun x hx => (h (c :: cs) (List.mem_cons_self _ _)).2 x (List.mem_cons_of_mem _ hx)
    show splitWs (c :: (cs ++ joinSpRest [])) = [c :: cs]
    rw [splitWs_cons_of_nws
      ((h (c :: cs) (List.mem_cons_self _ _)).2 c (List.mem_cons_self _ _))]
    rw [show joinSpRest ([] : List (List Char)) = [] from rfl, List.append_nil]
    rw [List.takeWhile_eq_self_iff.mpr (fun x hx => by simp [hcs x hx])]
    rw [List.dropWhile_eq_nil_iff.mpr (fun x hx => by simp [hcs x hx])]
    rfl
  | (c :: cs) :: w2 :: ws2, h => by
    have hcs : ∀ x ∈ cs, pyIsSpace x = false :=
      fun x hx => (h (c :: cs) (List.mem_cons_self _ _)).2 x (List.mem_cons_of_mem _ hx)
    have hrest : ∀ w' ∈ w2 :: ws2, w' ≠ [] ∧ ∀ c2 ∈ w', pyIsSpace c2 = false :=
      fun w' hw' => h w' (List.mem_cons_of_mem _ hw')
    show splitWs (c :: (cs ++ joinSpRest (w2 :: ws2))) = (c :: cs) :: w2 :: ws2
    rw [splitWs_cons_of_nws
      ((h (c :: cs) (List.mem_cons_self _ _)).2 c (List.mem_cons_self _ _))]
    rw [joinSpRest_cons]
    rw [takeWhile_append_all _ cs _ (fun x hx => by simp [hcs x hx])]
    rw [dropWhile_append_all _ cs _ (fun x hx => by simp [hcs x hx])]
    rw [List.takeWhile_cons_of_neg (by decide), List.append_nil]
    rw [List.dropWhile_cons_of_neg (by decide)]
    rw [splitWs_cons_of_ws (by decide)]
    rw [splitWs_joinSp (w2 :: ws2) hrest]
termination_by W => W.length
decreasing_by
  simp only [List.length_cons]
  omega

theorem map_self_of (f : Char → Char) (l : List Char) (h : ∀ c ∈ l, f c = c) :
    l.map f = l := by
  induction l with
  | nil => rfl
  | cons d ds ih =>
    rw [List.map_cons, h d (List.mem_cons_self d ds),
      ih (fun c hc => h c (List.mem_cons_of_mem _ hc))]

theorem normChars_eq_self (N : List Char)
    (hhead : ∀ c, N.head? = some c → pyIsSpace c = false ∧ inStripSet c = false)
    (hlast : ∀ c, N.getLast? = some c → pyIsSpace c = false ∧ inStripSet c = false)
    (hupper : ∀ c ∈ N, c.toUpper = c)
    (hsplit : joinSp (splitWs N) = N) :
    normChars N = N := by
  have h1 : pyStrip pyIsSpace N = N := by
    rcases hN : N.head? with _ | d
    · rw [List.head?_eq_none_iff.mp hN]
      rfl
    · have hd := (hhead d hN).1
      have hdw : N.dropWhile pyIsSpace = N := dropWhile_eq_self_of_head pyIsSpace N hN hd
      obtain ⟨g, hg⟩ := exists_getLast_of_ne_nil N
        (by intro h0; rw [h0] at hN; cases hN)
      show rStrip pyIsSpace (N.dropWhile pyIsSpace) = N
      rw [hdw]
      exact rStrip_eq_self_of_getLast pyIsSpace N hg (hlast g hg).1
  have h2 : pyStrip inStripSet N = N := by
    rcases hN : N.head? with _ | d
    · rw [List.head?_eq_none_iff.mp hN]
      rfl
    · have hd := (hhead d hN).2
      have hdw : N.dropWhile inStripSet = N := dropWhile_eq_self_of_head inStripSet N hN hd
      obtain ⟨g, hg⟩ := exists_getLast_of_ne_nil N
        (by intro h0; rw [h0] at hN; cases hN)
      show rStrip inStripSet (N.dropWhile inStripSet) = N
      rw [hdw]
      exact rStrip_eq_self_of_getLast inStripSet N hg (hlast g hg).2
  unfold normChars
  rw [h1, h2, map_self_of Char.toUpper N hupper, hsplit]

theorem normChars_idem (l : List Char)
    (hsp : ∀ c ∈ l, pyIsSpace c = true → c = ' ') :
    normChars (normChars l) = normChars l := by
  have hNdef : normChars l =
      joinSp (splitWs ((pyStrip inStripSet (pyStrip pyIsSpace l)).map Char.toUpper)) := rfl
  rcases hS : splitWs ((pyStrip inStripSet (pyStrip pyIsSpace l)).map Char.toUpper)
    with _ | ⟨w, W2⟩
  · have hN : normChars l = [] := by
      rw [hNdef, hS]
      rfl
    rw [hN]
    rfl
  · have hm1ne : pyStrip inStripSet (pyStrip pyIsSpace l) ≠ [] := by
      intro h0
      rw [h0] at hS
      simp [splitWs, splitWsAux] at hS
    obtain ⟨h0, hh0⟩ : ∃ c, (pyStrip inStripSet (pyStrip pyIsSpace l)).head? = some c := by
      rcases hx : (pyStrip inStripSet (pyStrip pyIsSpace l)).head? with _ | c
      · exact absurd (List.head?_eq_none_iff.mp hx) hm1ne
      · exact ⟨c, rfl⟩
    have hh0p : inStripSet h0 = false := pyStrip_head_not inStripSet _ hh0
    have hh0mem : h0 ∈ l :=
      pyStrip_subset pyIsSpace l h0
        (pyStrip_subset inStripSet _ h0 (mem_of_head?_eq _ hh0))
    have hh0ws : pyIsSpace h0 = false := by
      by_cases hws : pyIsSpace h0 = true
      · rw [hsp h0 hh0mem hws] at hh0p
        exact absurd hh0p (by decide)
      · simpa using hws
    have hmh' : ((pyStrip inStripSet (pyStrip pyIsSpace l)).map Char.toUpper).head? =
        some h0.toUpper := by
      rw [List.head?_map, hh0]
      rfl
    have hdw' : ((pyStrip inStripSet (pyStrip pyIsSpace l)).map Char.toUpper).dropWhile
        pyIsSpace = (pyStrip inStripSet (pyStrip pyIsSpace l)).map Char.toUpper :=
      dropWhile_eq_self_of_head pyIsSpace _ hmh'
        (by rw [pyIsSpace_toUpper]; exact hh0ws)
    obtain ⟨g0, hg0⟩ := exists_getLast_of_ne_nil _ hm1ne
    have hg0p : inStripSet g0 = false := pyStrip_getLast_not inStripSet _ hg0
    have hg0mem : g0 ∈ l :=
      pyStrip_subset pyIsSpace l g0
        (pyStrip_subset inStripSet _ g0 (mem_of_getLast?_eq _ hg0))
    have hg0ws : pyIsSpace g0 = false := by
      by_cases hws : pyIsSpace g0 = true
      · rw [hsp g0 hg0mem hws] at hg0p
        exact absurd hg0p (by decide)
      · simpa using hws
    have hmg' : ((pyStrip inStripSet (pyStrip pyIsSpace l)).map Char.toUpper).getLast? =
        some g0.toUpper := by
      rw [List.getLast?_map, hg0]
      rfl
    have hrs : rStrip pyIsSpace ((pyStrip inStripSet (pyStrip pyIsSpace l)).map Char.toUpper)
        = (pyStrip inStripSet (pyStrip pyIsSpace l)).map Char.toUpper :=
      rStrip_eq_self_of_getLast pyIsSpace _ hmg'
        (by rw [pyIsSpace_toUpper]; exact hg0ws)
    have hNlast : (normChars l).getLast? = some g0.toUpper := by
      rw [hNdef, splitWs_getLast, hrs, hmg']
    rcases w with _ | ⟨w0, wrest⟩
    · have hwh : ([] : List Char).head? = some h0.toUpper := by
        rw [splitWs_head _ _ W2 hS, hdw', hmh']
      cases hwh
    have hwh : (w0 :: wrest).head? = some h0.toUpper := by
      rw [splitWs_head _ _ W2 hS, hdw', hmh']
    rw [List.head?_cons] at hwh
    injection hwh with hw0
    have hNcons : normChars l = (w0 :: wrest) ++ joinSpRest W2 := by
      rw [hNdef, hS]
      rfl
    have hNhead : (normChars l).head? = some h0.toUpper := by
      rw [hNcons, List.cons_append, List.head?_cons, hw0]
    have hupper : ∀ c ∈ normChars l, c.toUpper = c := by
      intro c hc
      rw [hNdef] at hc
      rcases joinSp_mem _ c hc with he | ⟨w3, hw3, hc3⟩
      · rw [he]
        exact toUpper_eq_self ' ' (by decide)
      · have hcm : c ∈ (pyStrip inStripSet (pyStrip pyIsSpace l)).map Char.toUpper :=
          splitWs_chars _ w3 hw3 c hc3
        obtain ⟨d, _, hdc⟩ := List.mem_map.mp hcm
        rw [← hdc]
        exact toUpper_idem d
    have hsplitN : joinSp (splitWs (normChars l)) = normChars l := by
      rw [hNdef, splitWs_joinSp _ (splitWs_words _)]
    refine normChars_eq_self (normChars l) ?_ ?_ hupper hsplitN
    · intro c hc
      rw [hNhead] at hc
      injection hc with hc
      rw [← hc]
      exact ⟨by rw [pyIsSpace_toUpper]; exact hh0ws,
        by rw [inStripSet_toUpper]; exact hh0p⟩
    · intro c hc
      rw [hNlast] at hc
      injection hc with hc
      rw [← hc]
      exact ⟨by rw [pyIsSpace_toUpper]; exact hg0ws,
        by rw [inStripSet_toUpper]; exact hg0p⟩

/-- C7 (corrected).  Normalization is idempotent on every string whose
whitespace characters are all the plain space character — in particular
on every practical food name.  It is not idempotent on arbitrary
strings: a non-space whitespace character (for example a tab) adjacent
to edge punctuation is not in the stripped punctuation set, so it
shields interior punctuation from the edge strip; the later whitespace
collapse then removes it and exposes that punctuation at the edge of
the output, which only a second pass strips. -/
theorem norm_idem_spaces (s : String)
    (hsp : ∀ c ∈ s.data, pyIsSpace c = true → c = ' ') :
    _norm_food_name (_norm_food_name s) = _norm_food_name s :=
  congrArg String.mk (normChars_idem s.data hsp)

theorem norm_idem_spaces_witness :
    (∀ c ∈ ("  chicken   Breast ").data, pyIsSpace c = true → c = ' ') ∧
    _norm_food_name (_norm_food_name "  chicken   Breast ") =
      _norm_food_name "  chicken   Breast " :=
  ⟨by decide, norm_idem_spaces "  chicken   Breast " (by decide)⟩

/-- C7 counterexample to the claim as stated: for the four-character
string `".\t.a"` (period, tab, period, letter) the normalizer returns
`".A"`, and normalizing again returns `"A"`, so
`normalize(normalize(x)) ≠ normalize(x)` for this `x`. -/
theorem norm_idem_spaces_counterexample :
    _norm_food_name (_norm_food_name ".\t.a") ≠ _norm_food_name ".\t.a" ∧
    _norm_food_name ".\t.a" = ".A" ∧
    _norm_food_name (_norm_food_name ".\t.a") = "A" := by
  refine ⟨?_, by decide, by decide⟩
  decide
